import Mathlib

set_option maxRecDepth 8192
set_option maxHeartbeats 1000000

/-!
Verification of the Japanese-Text-Server Flask application.

The development shallowly embeds the code of src/app.py and
src/mock_responses.py.  Python strings are modelled as `List Char`;
Python string operations (split, strip, replace, substring test,
upper) are embedded as executable Lean functions.  The json library
collaborator (json.loads) is modelled by an executable recursive
descent parser over a JSON value type `JVal`; JSON numbers are
modelled as integers (the application never relies on float payloads)
and the parser is lenient about leading zeros and raw control
characters inside string literals, which does not matter for any of
the properties considered here.
-/

/-- The whitespace characters removed by the Python str.strip method
(ASCII subset; strip also removes rare unicode spaces, which we do not
model). -/
def isPyWs (c : Char) : Bool :=
  c = ' ' || c = '\t' || c = '\n' || c = '\r' || c = Char.ofNat 11 || c = Char.ofNat 12

/-- The whitespace characters skipped between tokens by json.loads. -/
def isJsonWs (c : Char) : Bool :=
  c = ' ' || c = '\t' || c = '\n' || c = '\r'

/-- Python s.startswith(pat), on character lists. -/
def beginsWith : List Char → List Char → Bool
  | [], _ => true
  | _ :: _, [] => false
  | p :: ps, c :: cs => p = c && beginsWith ps cs

/-- Python substring containment, pat in s. -/
def containsSeq (pat : List Char) : List Char → Bool
  | [] => beginsWith pat []
  | s@(_ :: t) => beginsWith pat s || containsSeq pat t

/-- Splits at the first occurrence of pat: Python s.split(pat, 1) when
pat occurs in s, returning the parts before and after the occurrence. -/
def splitOnce (pat : List Char) : List Char → Option (List Char × List Char)
  | [] => none
  | c :: t =>
    if beginsWith pat (c :: t) then some ([], (c :: t).drop pat.length)
    else (splitOnce pat t).map (fun p => (c :: p.1, p.2))

/-- Python s.split(pat, 1)[0]: everything before the first occurrence
of pat, or all of s when pat does not occur. -/
def splitHead (pat s : List Char) : List Char :=
  match splitOnce pat s with
  | some p => p.1
  | none => s

/-- Python s.split(pat, 1)[1]: everything after the first occurrence of
pat.  The application only evaluates this under a containment guard, so
the value returned when pat does not occur is irrelevant; we return s. -/
def splitTail (pat s : List Char) : List Char :=
  match splitOnce pat s with
  | some p => p.2
  | none => s

/-- Python s.strip(): remove leading and trailing whitespace. -/
def stripChars (s : List Char) : List Char :=
  ((s.dropWhile isPyWs).reverse.dropWhile isPyWs).reverse

/-- The three-backtick code fence marker. -/
def fence : List Char := ['`', '`', '`']

/-- The opening marker of a fenced code block tagged json. -/
def fenceJson : List Char := ['`', '`', '`', 'j', 's', 'o', 'n']

/-- Worker for the fence-removing replace: scans left to right, fuelled
by the length of the remaining input (each step consumes at least one
character, so the fuel never runs out on the initial call). -/
def replaceFenceAux : Nat → List Char → List Char
  | 0, s => s
  | _ + 1, [] => []
  | f + 1, c :: t =>
    if beginsWith fence (c :: t) then replaceFenceAux f (t.drop 2)
    else c :: replaceFenceAux f t

/-- Python s.replace("三backticks", ""): removes every (non-overlapping,
left to right) occurrence of the fence marker. -/
def replaceAllFence (s : List Char) : List Char := replaceFenceAux s.length s

/-- Embedding of extract_json_from_response (src/app.py lines 150-159):
if the text contains an opening json fence tag and a later closing
fence, the candidate is the stripped text strictly between them;
otherwise the whole text is the candidate; finally all remaining fence
markers are removed and the result stripped again. -/
def extract_json_from_response (response_text : List Char) : List Char :=
  let json_str :=
    if containsSeq fenceJson response_text &&
       containsSeq fence (splitTail fenceJson response_text) then
      stripChars (splitHead fence (splitTail fenceJson response_text))
    else response_text
  stripChars (replaceAllFence json_str)

/-! ### The JSON value model

json.loads and the serialization used in the idempotence claim are
modelled over the following value type.  Numbers are integers (floats
are out of scope for every claim considered), escapes cover the
backslash short forms but not backslash-u sequences, and the parser is
lenient about leading zeros and raw control characters inside string
literals; none of these corners is exercised by any claim. -/

inductive JVal where
  | jnull : JVal
  | jbool : Bool → JVal
  | jnum : Int → JVal
  | jstr : List Char → JVal
  | jarr : List JVal → JVal
  | jobj : List (List Char × JVal) → JVal

/-- Digit character for a value below ten. -/
def digitChar (d : Nat) : Char := Char.ofNat (48 + d)

/-- Numeric value of a digit character. -/
def digitVal (c : Char) : Nat := c.toNat - 48

/-- Decimal digits of a positive number, most significant first,
fuelled (fuel at least n always suffices). -/
def natToDigitsAux : Nat → Nat → List Char
  | 0, _ => []
  | _ + 1, 0 => []
  | f + 1, n => natToDigitsAux f (n / 10) ++ [digitChar (n % 10)]

/-- Decimal representation of a natural number. -/
def natToDigits (n : Nat) : List Char :=
  if n = 0 then ['0'] else natToDigitsAux n n

/-- Decimal representation of an integer. -/
def intToDigits (n : Int) : List Char :=
  if n < 0 then '-' :: natToDigits n.natAbs else natToDigits n.toNat

/-- JSON string escaping for one character. -/
def escapeChar (c : Char) : List Char :=
  if c = '"' then ['\\', '"']
  else if c = '\\' then ['\\', '\\']
  else if c = '\n' then ['\\', 'n']
  else if c = '\t' then ['\\', 't']
  else if c = '\r' then ['\\', 'r']
  else [c]

/-- JSON string escaping. -/
def escapeString : List Char → List Char
  | [] => []
  | c :: s => escapeChar c ++ escapeString s

mutual

/-- Canonical compact JSON serialization (the json.stringify of the
idempotence claim). -/
def jsonStringify : JVal → List Char
  | .jnull => ['n', 'u', 'l', 'l']
  | .jbool true => ['t', 'r', 'u', 'e']
  | .jbool false => ['f', 'a', 'l', 's', 'e']
  | .jnum n => intToDigits n
  | .jstr s => '"' :: escapeString s ++ ['"']
  | .jarr xs => '[' :: serElems xs ++ [']']
  | .jobj kvs => '{' :: serFields kvs ++ ['}']

/-- Comma-separated serialization of array elements. -/
def serElems : List JVal → List Char
  | [] => []
  | [x] => jsonStringify x
  | x :: y :: t => jsonStringify x ++ ',' :: serElems (y :: t)

/-- Comma-separated serialization of object fields. -/
def serFields : List (List Char × JVal) → List Char
  | [] => []
  | [(k, v)] => '"' :: escapeString k ++ '"' :: ':' :: jsonStringify v
  | (k, v) :: kv :: t =>
    ('"' :: escapeString k ++ '"' :: ':' :: jsonStringify v) ++ ',' :: serFields (kv :: t)

end

mutual

/-- A value is well formed when every object in it has pairwise
distinct keys, as a value arising from a Python dict always does. -/
def JVal.wfB : JVal → Bool
  | .jnull => true
  | .jbool _ => true
  | .jnum _ => true
  | .jstr _ => true
  | .jarr xs => listWfB xs
  | .jobj kvs => keysNodupB (kvs.map Prod.fst) && fieldsWfB kvs

/-- Pairwise distinctness of a key list. -/
def keysNodupB : List (List Char) → Bool
  | [] => true
  | k :: t => t.all (fun k2 => !(k2 == k)) && keysNodupB t

/-- Well-formedness of every element of an array. -/
def listWfB : List JVal → Bool
  | [] => true
  | x :: t => JVal.wfB x && listWfB t

/-- Well-formedness of every field value of an object. -/
def fieldsWfB : List (List Char × JVal) → Bool
  | [] => true
  | (_, v) :: t => JVal.wfB v && fieldsWfB t

end

/-- Reads one unescaped character after a backslash.  The backslash-u
form is not modelled. -/
def unescapeChar (e : Char) : Option Char :=
  if e = '"' then some '"'
  else if e = '\\' then some '\\'
  else if e = '/' then some '/'
  else if e = 'n' then some '\n'
  else if e = 't' then some '\t'
  else if e = 'r' then some '\r'
  else if e = 'b' then some (Char.ofNat 8)
  else if e = 'f' then some (Char.ofNat 12)
  else none

mutual

/-- Parses the body of a JSON string literal (after the opening quote)
up to and including the closing quote. -/
def parseStrBody : List Char → Option (List Char × List Char)
  | [] => none
  | c :: t =>
    if c = '"' then some ([], t)
    else if c = '\\' then parseStrEsc t
    else
      match parseStrBody t with
      | some p => some (c :: p.1, p.2)
      | none => none

/-- Parses the remainder of a string literal after a backslash. -/
def parseStrEsc : List Char → Option (List Char × List Char)
  | [] => none
  | e :: t2 =>
    match unescapeChar e with
    | some d =>
      match parseStrBody t2 with
      | some p => some (d :: p.1, p.2)
      | none => none
    | none => none

end

/-- Reads a run of digits, accumulating their value; stops at the
first non-digit. -/
def parseNatAux : List Char → Nat → Nat × List Char
  | [], acc => (acc, [])
  | c :: t, acc => if c.isDigit then parseNatAux t (acc * 10 + digitVal c) else (acc, c :: t)

mutual

/-- Recursive descent JSON value parser (the json.loads collaborator),
fuelled; every mutual call decreases the fuel by one. -/
def parseVal : Nat → List Char → Option (JVal × List Char)
  | 0, _ => none
  | f + 1, s =>
    match s.dropWhile isJsonWs with
    | [] => none
    | c :: t =>
      if c = '"' then
        match parseStrBody t with
        | some p => some (.jstr p.1, p.2)
        | none => none
      else if c = '{' then
        match t.dropWhile isJsonWs with
        | [] => none
        | d :: t2 =>
          if d = '}' then some (.jobj [], t2)
          else
            match parseFields f (d :: t2) with
            | some p => some (.jobj p.1, p.2)
            | none => none
      else if c = '[' then
        match t.dropWhile isJsonWs with
        | [] => none
        | d :: t2 =>
          if d = ']' then some (.jarr [], t2)
          else
            match parseElems f (d :: t2) with
            | some p => some (.jarr p.1, p.2)
            | none => none
      else if c = 't' then
        if beginsWith ['r', 'u', 'e'] t then some (.jbool true, t.drop 3) else none
      else if c = 'f' then
        if beginsWith ['a', 'l', 's', 'e'] t then some (.jbool false, t.drop 4) else none
      else if c = 'n' then
        if beginsWith ['u', 'l', 'l'] t then some (.jnull, t.drop 3) else none
      else if c = '-' then
        match t with
        | [] => none
        | d :: t2 =>
          if d.isDigit then
            some (.jnum (-((parseNatAux t2 (digitVal d)).1 : Int)), (parseNatAux t2 (digitVal d)).2)
          else none
      else if c.isDigit then
        some (.jnum ((parseNatAux t (digitVal c)).1 : Int), (parseNatAux t (digitVal c)).2)
      else none

/-- Parses a non-empty comma-separated element list, up to and
including the closing bracket. -/
def parseElems : Nat → List Char → Option (List JVal × List Char)
  | 0, _ => none
  | f + 1, s =>
    match parseVal f s with
    | none => none
    | some (v, r) =>
      match r.dropWhile isJsonWs with
      | [] => none
      | c :: t =>
        if c = ',' then
          match parseElems f t with
          | some p => some (v :: p.1, p.2)
          | none => none
        else if c = ']' then some ([v], t)
        else none

/-- Parses a non-empty comma-separated field list, up to and including
the closing brace. -/
def parseFields : Nat → List Char → Option (List (List Char × JVal) × List Char)
  | 0, _ => none
  | f + 1, s =>
    match s.dropWhile isJsonWs with
    | [] => none
    | c :: t =>
      if c = '"' then
        match parseStrBody t with
        | none => none
        | some (k, r) =>
          match r.dropWhile isJsonWs with
          | [] => none
          | d :: t2 =>
            if d = ':' then
              match parseVal f t2 with
              | none => none
              | some (v, r2) =>
                match r2.dropWhile isJsonWs with
                | [] => none
                | e :: t3 =>
                  if e = ',' then
                    match parseFields f t3 with
                    | some p => some ((k, v) :: p.1, p.2)
                    | none => none
                  else if e = '}' then some ([(k, v)], t3)
                  else none
            else none
      else none

end

/-- Embedding of json.loads: parse a complete JSON document, allowing
surrounding whitespace and nothing else. -/
def parseJson (s : List Char) : Option JVal :=
  match parseVal (s.length + 1) s with
  | some (v, r) => if r.all isJsonWs then some v else none
  | none => none

/-! ### The application model

The request handler generate_text (src/app.py lines 66-130) is
embedded as a function of the testing flag, the text of the upstream
model reply (response.text; the upstream call itself is the external
collaborator and is taken to return this text), and the raw request
body.  Exception messages coming from the Python runtime are modelled
with their standard texts; the position suffix of a json
JSONDecodeError message is not modelled. -/

/-- Everything before the first digit, or nothing ahead. -/
def noDigitStart : List Char → Bool
  | [] => true
  | c :: _ => !c.isDigit

/-- Value of a digit string on top of an accumulator. -/
def digitsVal (acc : Nat) (ds : List Char) : Nat :=
  ds.foldl (fun a c => a * 10 + digitVal c) acc

/-- Python str.upper, per character (ASCII model of unicode
upper-casing; only ASCII matters for matching the catalog keys). -/
def pyUpper (s : List Char) : List Char := s.map Char.toUpper

/-- Python truthiness of a JSON value. -/
def pyTruthy : JVal → Bool
  | .jnull => false
  | .jbool b => b
  | .jnum n => !(n == 0)
  | .jstr s => !s.isEmpty
  | .jarr xs => !xs.isEmpty
  | .jobj kvs => !kvs.isEmpty

/-- Is the value a Python str? -/
def isStrVal : JVal → Bool
  | .jstr _ => true
  | _ => false

/-- Python dict.get on the field list of a parsed JSON object.  When
a JSON text repeats a key, the Python dict keeps the last occurrence,
so the last binding wins. -/
def dictGet (fields : List (List Char × JVal)) (k : List Char) (d : JVal) : JVal :=
  (fields.foldl (fun acc kv => if kv.1 == k then some kv.2 else acc) none).getD d

/-- Key presence in the field list of a parsed JSON object. -/
def hasKeyFields (fields : List (List Char × JVal)) (k : List Char) : Bool :=
  fields.any (fun kv => kv.1 == k)

/-- Python name of the type of a JSON value. -/
def pyTypeName : JVal → List Char
  | .jnull => "NoneType".data
  | .jbool _ => "bool".data
  | .jnum _ => "int".data
  | .jstr _ => "str".data
  | .jarr _ => "list".data
  | .jobj _ => "dict".data

/-- The Python membership test k in v: key lookup on a dict, element
comparison on a list, substring test on a str; on any other type it
raises TypeError, modelled as none. -/
def jsonContains (k : List Char) : JVal → Option Bool
  | .jobj fields => some (hasKeyFields fields k)
  | .jarr xs => some (xs.any (fun x => match x with | .jstr s => s == k | _ => false))
  | .jstr s => some (containsSeq k s)
  | _ => none

/-- The JLPT level catalog (src/app.py lines 53-59), in insertion
order. -/
def JLPT_LEVELS : List (List Char × List Char) :=
  [("N5".data,
    "Basic Japanese knowledge. ~800 basic vocabulary words, basic grammar patterns.".data),
   ("N4".data,
    "Basic Japanese ability. ~1,500 vocabulary words, basic grammar patterns.".data),
   ("N3".data,
    "Intermediate Japanese ability. ~3,000 vocabulary words, intermediate grammar.".data),
   ("N2".data,
    "Pre-advanced Japanese ability. ~6,000 vocabulary words, advanced grammar.".data),
   ("N1".data,
    "Advanced Japanese ability. ~10,000 vocabulary words, complex grammar patterns.".data)]

/-- Catalog lookup (first match; the catalog keys are distinct). -/
def lookupLevel (k : List Char) : Option (List Char) :=
  (JLPT_LEVELS.find? (fun kv => kv.1 == k)).map Prod.snd

/-- Python ", ".join. -/
def joinComma : List (List Char) → List Char
  | [] => []
  | [k] => k
  | k :: k2 :: t => k ++ ", ".data ++ joinComma (k2 :: t)

/-- The comma-joined catalog keys, as interpolated into the invalid
level message. -/
def levelKeysJoined : List Char := joinComma (JLPT_LEVELS.map Prod.fst)

/-- Embedding of create_gemini_prompt (src/app.py lines 132-148): the
prompt template with the theme, the level and the catalog description
interpolated.  The Python expression JLPT_LEVELS[jlpt_level] is only
evaluated on keys validated upstream, so the missing-key KeyError is
not modelled. -/
def create_gemini_prompt (jlpt_level theme : List Char) : List Char :=
  "\n    Generate a short Japanese text (100-150 words) about the theme: ".data ++ theme ++
  ".\n    \n    The text should be appropriate for JLPT level ".data ++ jlpt_level ++
  " students.\n    ".data ++ (lookupLevel jlpt_level).getD [] ++
  "\n    \n    Please format your response as a JSON object with the following structure:\n    \x7b\"japanese_text\": \"[Japanese text here]\", \n      \"english_translation\": \"[English translation here]\",\n      \"vocabulary\": [\x7b\"word\": \"[Japanese word]\", \"reading\": \"[reading in hiragana]\", \"meaning\": \"[English meaning]\"\x7d],\n      \"grammar_points\": [\x7b\"pattern\": \"[grammar pattern]\", \"explanation\": \"[explanation in English]\"\x7d]\n    \x7d\n    \n    Ensure the text uses vocabulary and grammar appropriate for JLPT ".data ++
  jlpt_level ++ " level.\n    ".data

/-- The canned response of src/mock_responses.py. -/
def MOCK_RESPONSE : JVal :=
  .jobj
    [("japanese_text".data,
      .jstr "旅行は楽しいです。日本に行きたいです。京都で寺を見たいです。東京でショッピングをしたいです。日本料理を食べたいです。".data),
     ("english_translation".data,
      .jstr "Traveling is fun. I want to go to Japan. I want to see temples in Kyoto. I want to go shopping in Tokyo. I want to eat Japanese food.".data),
     ("vocabulary".data,
      .jarr
        [.jobj [("word".data, .jstr "旅行".data), ("reading".data, .jstr "りょこう".data),
                ("meaning".data, .jstr "travel, trip".data)],
         .jobj [("word".data, .jstr "楽しい".data), ("reading".data, .jstr "たのしい".data),
                ("meaning".data, .jstr "fun, enjoyable".data)],
         .jobj [("word".data, .jstr "行きたい".data), ("reading".data, .jstr "いきたい".data),
                ("meaning".data, .jstr "want to go".data)],
         .jobj [("word".data, .jstr "寺".data), ("reading".data, .jstr "てら".data),
                ("meaning".data, .jstr "temple".data)],
         .jobj [("word".data, .jstr "見たい".data), ("reading".data, .jstr "みたい".data),
                ("meaning".data, .jstr "want to see".data)]]),
     ("grammar_points".data,
      .jarr
        [.jobj [("pattern".data, .jstr "〜たい".data),
                ("explanation".data, .jstr "Expresses desire to do something".data)],
         .jobj [("pattern".data, .jstr "〜で".data),
                ("explanation".data, .jstr "Indicates location where an action takes place".data)],
         .jobj [("pattern".data, .jstr "〜は".data),
                ("explanation".data, .jstr "Topic marker particle".data)]])]

/-- Outcome of the response processing block (src/app.py lines
110-126): success, a json.JSONDecodeError from the parse, the
ValueError raised when the japanese_text key is absent, or the
TypeError raised by the membership test on a non-container value
(which the inner except clause does not catch). -/
inductive ProcResult where
  | ok : JVal → ProcResult
  | parseError : ProcResult
  | schemaError : ProcResult
  | typeError : List Char → ProcResult

/-- The response processing block: extract the candidate payload,
parse it, then check that the japanese_text key is present. -/
def process_response (raw : List Char) : ProcResult :=
  match parseJson (extract_json_from_response raw) with
  | none => .parseError
  | some v =>
    match jsonContains "japanese_text".data v with
    | none => .typeError (pyTypeName v)
    | some true => .ok v
    | some false => .schemaError

/-- An HTTP response: status code and JSON body. -/
structure HttpResponse where
  status : Nat
  body : JVal

/-- A JSON error body. -/
def errorBody (msg : List Char) : JVal := .jobj [("error".data, .jstr msg)]

/-- Representative detail text of a json.JSONDecodeError (the
position suffix varies with the input and is not modelled). -/
def jsonDecodeDetail : List Char := "Expecting value".data

/-- str(e) of the ValueError raised on a missing japanese_text key
(src/app.py line 117). -/
def missingFieldDetail : List Char :=
  "Response missing \x27japanese_text\x27 field".data

/-- str(e) of the AttributeError raised by .upper() on a non-string. -/
def attrErrNoUpper (v : JVal) : List Char :=
  "\x27".data ++ pyTypeName v ++ "\x27 object has no attribute \x27upper\x27".data

/-- str(e) of the AttributeError raised by .get on a non-dict body. -/
def attrErrNoGet (v : JVal) : List Char :=
  "\x27".data ++ pyTypeName v ++ "\x27 object has no attribute \x27get\x27".data

/-- str(e) of the TypeError raised by the membership test on a
non-container value. -/
def typeErrDetail (ty : List Char) : List Char :=
  "argument of type \x27".data ++ ty ++ "\x27 is not iterable".data

/-- Embedding of the generate_text request handler (src/app.py lines
66-130).  The testing flag is app.config TESTING; modelReply is the
text returned by the upstream model client in production mode; rawBody
is the request body.  mock_responses is present in the repository, so
its import always succeeds in testing mode. -/
def generate_text (testing : Bool) (modelReply : List Char) (rawBody : List Char) :
    HttpResponse :=
  match parseJson rawBody with
  | none => ⟨400, errorBody ("Invalid JSON format: ".data ++ jsonDecodeDetail)⟩
  | some data =>
    if pyTruthy data = false then
      ⟨400, errorBody "Request body is required".data⟩
    else
      match data with
      | .jobj fields =>
        match dictGet fields "jlpt_level".data (.jstr []) with
        | .jstr lvlRaw =>
          let jlpt_level := pyUpper lvlRaw
          let theme := dictGet fields "theme".data (.jstr [])
          if jlpt_level.isEmpty || (lookupLevel jlpt_level).isNone then
            ⟨400, errorBody ("Invalid JLPT level. Must be one of: ".data ++ levelKeysJoined)⟩
          else if pyTruthy theme = false || !isStrVal theme then
            ⟨400, errorBody "Theme is required and must be a string".data⟩
          else if testing then
            ⟨200, MOCK_RESPONSE⟩
          else
            match process_response modelReply with
            | .ok v => ⟨200, v⟩
            | .parseError =>
              ⟨500, .jobj
                [("error".data,
                  .jstr ("Failed to process response: ".data ++ jsonDecodeDetail)),
                 ("japanese_text".data, .jstr modelReply)]⟩
            | .schemaError =>
              ⟨500, .jobj
                [("error".data,
                  .jstr ("Failed to process response: ".data ++ missingFieldDetail)),
                 ("japanese_text".data, .jstr modelReply)]⟩
            | .typeError ty =>
              ⟨500, errorBody ("Internal server error: ".data ++ typeErrDetail ty)⟩
        | v => ⟨500, errorBody ("Internal server error: ".data ++ attrErrNoUpper v)⟩
      | _ => ⟨500, errorBody ("Internal server error: ".data ++ attrErrNoGet data)⟩


/-- A run of JSON whitespace. -/
def wsRun (w : List Char) : Prop := ∀ c ∈ w, isJsonWs c = true

/-- The head, if any, opens a JSON value: not whitespace and not a
closing delimiter or separator. -/
def headValStart (m : List Char) : Prop :=
  ∀ c, m.head? = some c → isPyWs c = false ∧ c ≠ ']' ∧ c ≠ '}' ∧ c ≠ ','

/-- The last character, if any, is not whitespace. -/
def lastNonWs (m : List Char) : Prop :=
  ∀ c, m.getLast? = some c → isPyWs c = false

/-- A successful parseVal run consumes an optional whitespace prefix
followed by a core with non-whitespace boundaries, and the core parses
the same way in any context with enough fuel. -/
def ValDecomp (s : List Char) (v : JVal) (r : List Char) : Prop :=
  ∃ w m, s = w ++ m ++ r ∧ wsRun w ∧ m ≠ [] ∧ headValStart m ∧ lastNonWs m ∧
    ∀ f' r', m.length < f' → noDigitStart r' = true → parseVal f' (m ++ r') = some (v, r')

/-- The parseElems analogue of ValDecomp; the core ends at the
closing bracket. -/
def ElemsDecomp (s : List Char) (vs : List JVal) (r : List Char) : Prop :=
  ∃ w m, s = w ++ m ++ r ∧ wsRun w ∧ m ≠ [] ∧ headValStart m ∧ m.getLast? = some ']' ∧
    ∀ f' r', m.length < f' → parseElems f' (m ++ r') = some (vs, r')

/-- The parseFields analogue of ValDecomp; the core starts at the key
quote and ends at the closing brace. -/
def FieldsDecomp (s : List Char) (kvs : List (List Char × JVal)) (r : List Char) : Prop :=
  ∃ w m, s = w ++ m ++ r ∧ wsRun w ∧ m ≠ [] ∧ m.head? = some '"' ∧ m.getLast? = some '}' ∧
    ∀ f' r', m.length < f' → parseFields f' (m ++ r') = some (kvs, r')

mutual

/-- Fuel sufficient for parseVal on the serialization of a value. -/
def Jfuel : JVal → Nat
  | .jnull => 1
  | .jbool _ => 1
  | .jnum _ => 1
  | .jstr _ => 1
  | .jarr xs => 1 + elemsFuel xs
  | .jobj kvs => 1 + fieldsFuel kvs

/-- Fuel sufficient for parseElems on serialized elements. -/
def elemsFuel : List JVal → Nat
  | [] => 0
  | x :: t => 1 + max (Jfuel x) (elemsFuel t)

/-- Fuel sufficient for parseFields on serialized fields. -/
def fieldsFuel : List (List Char × JVal) → Nat
  | [] => 0
  | (_, v) :: t => 1 + max (Jfuel v) (fieldsFuel t)

end

theorem isPyWs_of_isJsonWs {c : Char} (h : isJsonWs c = true) : isPyWs c = true := by
  simp only [isJsonWs, Bool.or_eq_true, decide_eq_true_eq] at h
  simp only [isPyWs, Bool.or_eq_true, decide_eq_true_eq]
  tauto

/-! ### Basic facts about the string operations -/

theorem beginsWith_append_self : ∀ p r : List Char, beginsWith p (p ++ r) = true := by
  intro p
  induction p with
  | nil => intro r; rfl
  | cons c t ih =>
    intro r
    simp only [List.cons_append, beginsWith, Bool.and_eq_true, decide_eq_true_eq, true_and]
    exact ih r

theorem beginsWith_iff : ∀ p s : List Char, beginsWith p s = true ↔ ∃ t, s = p ++ t := by
  intro p
  induction p with
  | nil =>
    intro s
    constructor
    · intro _
      exact ⟨s, rfl⟩
    · intro _
      rfl
  | cons c t ih =>
    intro s
    cases s with
    | nil =>
      simp only [beginsWith, List.cons_append]
      constructor
      · intro h; exact absurd h (by simp)
      · rintro ⟨u, hu⟩; exact absurd hu (by simp)
    | cons d u =>
      simp only [beginsWith, Bool.and_eq_true, decide_eq_true_eq, ih u, List.cons_append,
        List.cons.injEq]
      constructor
      · rintro ⟨rfl, v, rfl⟩; exact ⟨v, rfl, rfl⟩
      · rintro ⟨v, rfl, rfl⟩; exact ⟨rfl, v, rfl⟩

theorem containsSeq_iff : ∀ pat s : List Char,
    containsSeq pat s = true ↔ ∃ a b, s = a ++ pat ++ b := by
  intro pat s
  induction s with
  | nil =>
    simp only [containsSeq, beginsWith_iff]
    constructor
    · rintro ⟨t, ht⟩
      exact ⟨[], t, by simpa using ht⟩
    · rintro ⟨a, b, hab⟩
      have ha : a = [] := by
        cases a with
        | nil => rfl
        | cons x xs => simp at hab
      subst ha
      exact ⟨b, by simpa using hab⟩
  | cons c t ih =>
    simp only [containsSeq, Bool.or_eq_true, beginsWith_iff, ih]
    constructor
    · rintro (⟨u, hu⟩ | ⟨a, b, hab⟩)
      · exact ⟨[], u, by simpa using hu⟩
      · exact ⟨c :: a, b, by simp [hab]⟩
    · rintro ⟨a, b, hab⟩
      cases a with
      | nil =>
        left
        exact ⟨b, by simpa using hab⟩
      | cons x xs =>
        right
        simp only [List.cons_append, List.cons.injEq] at hab
        exact ⟨xs, b, hab.2⟩

theorem containsSeq_sub {pat s s' : List Char} (u v : List Char)
    (hs : s = u ++ s' ++ v) (h : containsSeq pat s = false) :
    containsSeq pat s' = false := by
  by_contra hc
  rw [Bool.not_eq_false, containsSeq_iff] at hc
  obtain ⟨a, b, rfl⟩ := hc
  rw [← Bool.not_eq_true, containsSeq_iff] at h
  exact h ⟨u ++ a, b ++ v, by simp [hs]⟩

theorem containsSeq_fenceJson_of_fence {s : List Char}
    (h : containsSeq fence s = false) : containsSeq fenceJson s = false := by
  by_contra hc
  rw [Bool.not_eq_false, containsSeq_iff] at hc
  obtain ⟨a, b, rfl⟩ := hc
  rw [← Bool.not_eq_true, containsSeq_iff] at h
  refine h ⟨a, ['j', 's', 'o', 'n'] ++ b, ?_⟩
  simp [fence, fenceJson]

theorem splitOnce_append_self (pat t : List Char) (hp : pat ≠ []) :
    splitOnce pat (pat ++ t) = some ([], t) := by
  cases pat with
  | nil => exact absurd rfl hp
  | cons c p =>
    show splitOnce (c :: p) (c :: (p ++ t)) = _
    have hb : beginsWith (c :: p) (c :: (p ++ t)) = true := by
      have h := beginsWith_append_self (c :: p) t
      simp only [List.cons_append] at h
      exact h
    rw [splitOnce, if_pos hb]
    simp only [Option.some.injEq, Prod.mk.injEq, true_and]
    have h := List.drop_left (c :: p) t
    simp only [List.cons_append] at h
    exact h

theorem splitOnce_cons_of_not_begins {pat : List Char} {c : Char} {t : List Char}
    (h : beginsWith pat (c :: t) = false) :
    splitOnce pat (c :: t) = (splitOnce pat t).map (fun p => (c :: p.1, p.2)) := by
  rw [splitOnce, if_neg]
  simp [h]

theorem containsSeq_of_splitOnce_some {pat : List Char} :
    ∀ {s p}, splitOnce pat s = some p → containsSeq pat s = true := by
  intro s
  induction s with
  | nil => intro p h; exact absurd h (by simp [splitOnce])
  | cons c t ih =>
    intro p h
    rw [splitOnce] at h
    by_cases hb : beginsWith pat (c :: t) = true
    · simp [containsSeq, hb]
    · rw [if_neg hb] at h
      rw [containsSeq, Bool.or_eq_true]
      right
      cases hs : splitOnce pat t with
      | none => rw [hs] at h; exact absurd h (by simp)
      | some q => exact ih hs

/-! ### Where the extractor splits fenced text -/

theorem splitOnce_fenceJson_boundary (R : List Char) :
    ∀ P1 : List Char, containsSeq fence P1 = false →
    splitOnce fenceJson (P1 ++ fenceJson ++ R) = some (P1, R) := by
  intro P1
  induction P1 with
  | nil =>
    intro _
    simp only [List.nil_append]
    exact splitOnce_append_self fenceJson R (by simp [fenceJson])
  | cons c t ih =>
    intro hc
    have hct : containsSeq fence t = false := by
      rw [containsSeq, Bool.or_eq_false_iff] at hc
      exact hc.2
    have hnb : beginsWith fenceJson (c :: (t ++ fenceJson ++ R)) = false := by
      by_contra hb
      rw [Bool.not_eq_false] at hb
      simp only [fenceJson, beginsWith, Bool.and_eq_true, decide_eq_true_eq] at hb
      obtain ⟨rfl, hb⟩ := hb
      cases t with
      | nil =>
        simp [List.nil_append, List.cons_append, beginsWith] at hb
      | cons a t' =>
        simp only [List.cons_append, beginsWith, Bool.and_eq_true, decide_eq_true_eq] at hb
        obtain ⟨rfl, hb⟩ := hb
        cases t' with
        | nil =>
          simp [List.nil_append, List.cons_append, beginsWith] at hb
        | cons b t'' =>
          simp only [List.cons_append, beginsWith, Bool.and_eq_true, decide_eq_true_eq] at hb
          obtain ⟨rfl, _⟩ := hb
          rw [containsSeq] at hc
          simp [beginsWith, fence] at hc
    have hstep := splitOnce_cons_of_not_begins (t := t ++ fenceJson ++ R) hnb
    simp only [List.cons_append, List.append_assoc] at hstep ⊢
    simp only [List.append_assoc] at ih
    rw [hstep, ih hct]
    rfl

theorem splitOnce_fence_boundary (R : List Char) :
    ∀ J : List Char, containsSeq fence J = false → J.getLast? ≠ some '`' →
    splitOnce fence (J ++ fence ++ R) = some (J, R) := by
  intro J
  induction J with
  | nil =>
    intro _ _
    simp only [List.nil_append]
    exact splitOnce_append_self fence R (by simp [fence])
  | cons c t ih =>
    intro hc hl
    have hct : containsSeq fence t = false := by
      rw [containsSeq, Bool.or_eq_false_iff] at hc
      exact hc.2
    have hnb : beginsWith fence (c :: (t ++ fence ++ R)) = false := by
      by_contra hb
      rw [Bool.not_eq_false] at hb
      simp only [fence, beginsWith, Bool.and_eq_true, decide_eq_true_eq] at hb
      obtain ⟨rfl, hb⟩ := hb
      cases t with
      | nil =>
        simp at hl
      | cons a t' =>
        simp only [List.cons_append, beginsWith, Bool.and_eq_true, decide_eq_true_eq] at hb
        obtain ⟨rfl, hb⟩ := hb
        cases t' with
        | nil =>
          simp [List.getLast?_cons_cons] at hl
        | cons b t'' =>
          simp only [List.cons_append, beginsWith, Bool.and_eq_true, decide_eq_true_eq] at hb
          obtain ⟨rfl, _⟩ := hb
          rw [containsSeq] at hc
          simp [beginsWith, fence] at hc
    have hlt : t.getLast? ≠ some '`' := by
      cases t with
      | nil => intro h; exact absurd h (by simp)
      | cons a t' =>
        rw [List.getLast?_cons_cons] at hl
        exact hl
    have hstep := splitOnce_cons_of_not_begins (t := t ++ fence ++ R) hnb
    simp only [List.cons_append, List.append_assoc] at hstep ⊢
    simp only [List.append_assoc] at ih
    rw [hstep, ih hct hlt]
    rfl

/-! ### Facts about strip -/

theorem dropWhile_append_all {p : Char → Bool} :
    ∀ w t : List Char, (∀ c ∈ w, p c = true) → (w ++ t).dropWhile p = t.dropWhile p := by
  intro w
  induction w with
  | nil => intro t _; rfl
  | cons c u ih =>
    intro t hw
    rw [List.cons_append, List.dropWhile_cons, if_pos (hw c (by simp))]
    exact ih t (fun d hd => hw d (by simp [hd]))

theorem dropWhile_head_neg {p : Char → Bool} {c : Char} {t : List Char} (h : p c = false) :
    (c :: t).dropWhile p = c :: t := by
  rw [List.dropWhile_cons, if_neg]
  simp [h]

theorem dropWhile_all_nil {p : Char → Bool} {t : List Char} (h : ∀ c ∈ t, p c = true) :
    t.dropWhile p = [] :=
  List.dropWhile_eq_nil_iff.mpr h

theorem getLast?_reverse' (l : List Char) : l.reverse.getLast? = l.head? := by
  rw [← List.head?_reverse, List.reverse_reverse]

theorem stripChars_sandwich (w m r : List Char)
    (hw : ∀ c ∈ w, isPyWs c = true) (hr : ∀ c ∈ r, isPyWs c = true)
    (hh : ∀ c, m.head? = some c → isPyWs c = false)
    (hl : ∀ c, m.getLast? = some c → isPyWs c = false) :
    stripChars (w ++ m ++ r) = m := by
  unfold stripChars
  cases m with
  | nil =>
    rw [List.append_nil, dropWhile_append_all w r hw, dropWhile_all_nil hr]
    rfl
  | cons c t =>
    have hc : isPyWs c = false := hh c rfl
    rw [List.append_assoc, dropWhile_append_all w ((c :: t) ++ r) hw, List.cons_append,
      dropWhile_head_neg hc, ← List.cons_append, List.reverse_append]
    obtain ⟨m', d, hm⟩ : ∃ m' d, c :: t = m' ++ [d] := by
      rcases List.eq_nil_or_concat (c :: t) with h | ⟨L, b, hL⟩
      · exact absurd h (by simp)
      · exact ⟨L, b, by simpa using hL⟩
    have hd : isPyWs d = false := hl d (by rw [hm, List.getLast?_concat])
    rw [hm, List.reverse_append]
    simp only [List.reverse_cons, List.reverse_nil, List.nil_append, List.cons_append]
    rw [dropWhile_append_all r.reverse _ (fun x hx => hr x (by simpa using hx)),
      dropWhile_head_neg hd]
    simp

theorem stripChars_head (s : List Char) :
    ∀ c, (stripChars s).head? = some c → isPyWs c = false := by
  intro c hc
  unfold stripChars at hc
  set m1 := s.dropWhile isPyWs with hm1
  set m2 := m1.reverse.dropWhile isPyWs with hm2
  rw [List.head?_reverse] at hc
  have hsub : ∃ u, m1.reverse = u ++ m2 := ⟨m1.reverse.takeWhile isPyWs, by
    rw [hm2, List.takeWhile_append_dropWhile]⟩
  obtain ⟨u, hu⟩ := hsub
  cases hm : m2 with
  | nil => rw [hm] at hc; exact absurd hc (by simp)
  | cons d t =>
    rw [hm] at hc
    have hgl : m1.reverse.getLast? = some c := by
      rw [hu, hm, List.getLast?_append, hc]
      rfl
    rw [getLast?_reverse'] at hgl
    -- c is the head of m1 = s.dropWhile isPyWs, hence not whitespace
    clear hc hu hm
    revert hgl
    rw [hm1]
    clear hm1 hm2
    induction s with
    | nil => intro h; exact absurd h (by simp)
    | cons a s' ih =>
      intro h
      rw [List.dropWhile_cons] at h
      by_cases ha : isPyWs a = true
      · rw [if_pos ha] at h
        exact ih h
      · rw [if_neg ha] at h
        simp only [List.head?_cons, Option.some.injEq] at h
        subst h
        exact Bool.not_eq_true _ ▸ ha

theorem stripChars_getLast (s : List Char) :
    ∀ c, (stripChars s).getLast? = some c → isPyWs c = false := by
  intro c hc
  unfold stripChars at hc
  rw [getLast?_reverse'] at hc
  set m1 := s.dropWhile isPyWs with hm1
  revert hc
  generalize m1.reverse = l
  induction l with
  | nil => intro h; exact absurd h (by simp)
  | cons a s' ih =>
    intro h
    rw [List.dropWhile_cons] at h
    by_cases ha : isPyWs a = true
    · rw [if_pos ha] at h
      exact ih h
    · rw [if_neg ha] at h
      simp only [List.head?_cons, Option.some.injEq] at h
      subst h
      exact Bool.not_eq_true _ ▸ ha

theorem stripChars_idem (s : List Char) : stripChars (stripChars s) = stripChars s := by
  have h := stripChars_sandwich [] (stripChars s) [] (by simp) (by simp)
    (stripChars_head s) (stripChars_getLast s)
  simpa using h

theorem stripChars_decomp (s : List Char) : ∃ u v, s = u ++ stripChars s ++ v := by
  refine ⟨s.takeWhile isPyWs, ((s.dropWhile isPyWs).reverse.takeWhile isPyWs).reverse, ?_⟩
  unfold stripChars
  conv_lhs => rw [← List.takeWhile_append_dropWhile (p := isPyWs) (l := s)]
  rw [List.append_assoc]
  congr 1
  conv_lhs => rw [← List.reverse_reverse (s.dropWhile isPyWs),
    ← List.takeWhile_append_dropWhile (p := isPyWs) (l := (s.dropWhile isPyWs).reverse)]
  rw [List.reverse_append]

theorem replaceFenceAux_eq_self : ∀ s : List Char, containsSeq fence s = false →
    replaceFenceAux s.length s = s := by
  intro s
  induction s with
  | nil => intro _; rfl
  | cons c t ih =>
    intro h
    rw [containsSeq, Bool.or_eq_false_iff] at h
    show replaceFenceAux (t.length + 1) (c :: t) = c :: t
    rw [replaceFenceAux, if_neg (by simp [h.1]), ih h.2]

theorem replaceAllFence_eq_self (s : List Char) (h : containsSeq fence s = false) :
    replaceAllFence s = s :=
  replaceFenceAux_eq_self s h

/-! ### Claim C1 -/

/-- C1 (amended): for raw model text of the form P1 plus an opening
json fence tag plus J plus a closing fence plus P2, where neither P1
nor J contains a fence marker and J does not end in a backtick, the
extractor returns exactly J stripped of surrounding whitespace, so the
subsequent JSON parse operates on that payload alone. -/
theorem claim_c1_amended (P1 J P2 : List Char)
    (hP1 : containsSeq fence P1 = false)
    (hJ : containsSeq fence J = false)
    (hJl : J.getLast? ≠ some '`') :
    extract_json_from_response (P1 ++ fenceJson ++ J ++ fence ++ P2) = stripChars J := by
  have h1 : splitOnce fenceJson (P1 ++ fenceJson ++ J ++ fence ++ P2) =
      some (P1, J ++ fence ++ P2) := by
    have h := splitOnce_fenceJson_boundary (J ++ fence ++ P2) P1 hP1
    simp only [List.append_assoc] at h ⊢
    exact h
  have h2 : splitOnce fence (J ++ fence ++ P2) = some (J, P2) :=
    splitOnce_fence_boundary P2 J hJ hJl
  have hTail : splitTail fenceJson (P1 ++ fenceJson ++ J ++ fence ++ P2) =
      J ++ fence ++ P2 := by
    unfold splitTail
    rw [h1]
  have hHead : splitHead fence (J ++ fence ++ P2) = J := by
    unfold splitHead
    rw [h2]
  have hc1 : containsSeq fenceJson (P1 ++ fenceJson ++ J ++ fence ++ P2) = true :=
    containsSeq_of_splitOnce_some h1
  have hc2 : containsSeq fence (J ++ fence ++ P2) = true :=
    containsSeq_of_splitOnce_some h2
  unfold extract_json_from_response
  rw [hTail, hHead, hc1, hc2]
  simp only [Bool.and_self, if_true]
  have hsf : containsSeq fence (stripChars J) = false := by
    obtain ⟨u, v, hd⟩ := stripChars_decomp J
    exact containsSeq_sub u v hd hJ
  rw [replaceAllFence_eq_self _ hsf, stripChars_idem]

/-- C1 (counterexample): the claim as stated fails for arbitrary
surrounding text.  First instance: the prose before the fenced block
itself contains a json fence tag, so the extractor cuts inside the
prose instead of at the fenced block (payload A instead of C).  Second
instance: the fenced payload ends in a backtick, so the closing fence
is found one character early (payload a instead of the full payload).
In both instances the payload contains no fence marker, as the claim
requires. -/
theorem claim_c1_counterexample :
    (containsSeq fence "C".data = false ∧
      extract_json_from_response ("```jsonA```".data ++ fenceJson ++ "C".data ++ fence ++ []) ≠
        stripChars "C".data) ∧
    (containsSeq fence "a`".data = false ∧
      extract_json_from_response ([] ++ fenceJson ++ "a`".data ++ fence ++ []) ≠
        stripChars "a`".data) := by
  exact ⟨⟨by decide, by decide⟩, ⟨by decide, by decide⟩⟩

/-- C1 (witness): the amended theorem applied to a concrete fenced
response with prose on both sides. -/
theorem claim_c1_witness :
    containsSeq fence "Sure! Here it is:\n".data = false ∧
    containsSeq fence "\n\x7b\"japanese_text\": \"abc\"\x7d\n".data = false ∧
    "\n\x7b\"japanese_text\": \"abc\"\x7d\n".data.getLast? ≠ some '`' ∧
    extract_json_from_response ("Sure! Here it is:\n".data ++ fenceJson ++
        "\n\x7b\"japanese_text\": \"abc\"\x7d\n".data ++ fence ++ "\nHope this helps.".data) =
      stripChars "\n\x7b\"japanese_text\": \"abc\"\x7d\n".data :=
  ⟨by decide, by decide, by decide,
    claim_c1_amended "Sure! Here it is:\n".data "\n\x7b\"japanese_text\": \"abc\"\x7d\n".data
      "\nHope this helps.".data (by decide) (by decide) (by decide)⟩


/-! ### Digits -/

theorem toNat_ofNat_valid {n : Nat} (h : n.isValidChar) : (Char.ofNat n).toNat = n := by
  unfold Char.ofNat
  rw [dif_pos h]
  rfl

theorem digitVal_digitChar {d : Nat} (h : d < 10) : digitVal (digitChar d) = d := by
  unfold digitVal digitChar
  rw [toNat_ofNat_valid (by left; omega)]
  omega

theorem isDigit_digitChar {d : Nat} (h : d < 10) : (digitChar d).isDigit = true := by
  interval_cases d <;> decide

theorem natToDigitsAux_zero (f : Nat) : natToDigitsAux f 0 = [] := by
  cases f with
  | zero => rfl
  | succ f => rfl

theorem natToDigitsAux_spec : ∀ f n, 0 < n → n ≤ f →
    (∀ c ∈ natToDigitsAux f n, c.isDigit = true) ∧
      digitsVal 0 (natToDigitsAux f n) = n ∧ natToDigitsAux f n ≠ [] := by
  intro f
  induction f with
  | zero => intro n h1 h2; omega
  | succ f ih =>
    intro n h1 h2
    have hn : natToDigitsAux (f + 1) n = natToDigitsAux f (n / 10) ++ [digitChar (n % 10)] := by
      cases n with
      | zero => omega
      | succ m => rfl
    have hd : (n % 10) < 10 := Nat.mod_lt _ (by omega)
    rw [hn]
    rcases Nat.eq_zero_or_pos (n / 10) with h10 | h10
    · rw [h10, natToDigitsAux_zero, List.nil_append]
      refine ⟨?_, ?_, by simp⟩
      · intro c hc
        simp only [List.mem_singleton] at hc
        subst hc
        exact isDigit_digitChar hd
      · simp only [digitsVal, List.foldl_cons, List.foldl_nil, Nat.zero_mul, Nat.zero_add]
        rw [digitVal_digitChar hd]
        omega
    · have hlt : n / 10 < n := Nat.div_lt_self h1 (by omega)
      have hih := ih (n / 10) h10 (by omega)
      refine ⟨?_, ?_, by simp⟩
      · intro c hc
        rw [List.mem_append] at hc
        rcases hc with hc | hc
        · exact hih.1 c hc
        · simp only [List.mem_singleton] at hc
          subst hc
          exact isDigit_digitChar hd
      · simp only [digitsVal, List.foldl_append, List.foldl_cons, List.foldl_nil]
        have hv := hih.2.1
        simp only [digitsVal] at hv
        rw [hv, digitVal_digitChar hd]
        omega

theorem natToDigits_spec (n : Nat) :
    (∀ c ∈ natToDigits n, c.isDigit = true) ∧ digitsVal 0 (natToDigits n) = n ∧
      natToDigits n ≠ [] := by
  unfold natToDigits
  by_cases h : n = 0
  · subst h
    rw [if_pos rfl]
    exact ⟨by decide, by decide, by decide⟩
  · rw [if_neg h]
    exact natToDigitsAux_spec n n (by omega) le_rfl

theorem isJsonWs_of_isDigit {c : Char} (h : c.isDigit = true) : isJsonWs c = false := by
  by_contra hw
  rw [Bool.not_eq_false] at hw
  simp only [isJsonWs, Bool.or_eq_true, decide_eq_true_eq] at hw
  rcases hw with ((rfl | rfl) | rfl) | rfl <;> revert h <;> decide

theorem parseNatAux_append : ∀ ds : List Char, ∀ acc r, (∀ c ∈ ds, c.isDigit = true) →
    noDigitStart r = true → parseNatAux (ds ++ r) acc = (digitsVal acc ds, r) := by
  intro ds
  induction ds with
  | nil =>
    intro acc r _ hr
    cases r with
    | nil => rfl
    | cons c t =>
      simp only [noDigitStart, Bool.not_eq_true'] at hr
      simp only [List.nil_append, parseNatAux, digitsVal, List.foldl_nil]
      rw [if_neg (by simp [hr])]
  | cons d ds ih =>
    intro acc r hds hr
    simp only [List.cons_append, parseNatAux]
    rw [if_pos (hds d (by simp))]
    simp only [List.append_eq]
    rw [ih _ r (fun c hc => hds c (by simp [hc])) hr]
    simp [digitsVal]

theorem parseNatAux_decomp : ∀ t : List Char, ∀ acc, ∃ ds,
    (∀ c ∈ ds, c.isDigit = true) ∧ t = ds ++ (parseNatAux t acc).2 ∧
    noDigitStart (parseNatAux t acc).2 = true ∧ (parseNatAux t acc).1 = digitsVal acc ds := by
  intro t
  induction t with
  | nil =>
    intro acc
    exact ⟨[], by simp, by simp [parseNatAux], by simp [parseNatAux, noDigitStart],
      by simp [parseNatAux, digitsVal]⟩
  | cons c t ih =>
    intro acc
    by_cases hc : c.isDigit = true
    · obtain ⟨ds, h1, h2, h3, h4⟩ := ih (acc * 10 + digitVal c)
      have he : parseNatAux (c :: t) acc = parseNatAux t (acc * 10 + digitVal c) := by
        simp [parseNatAux, hc]
      rw [he]
      refine ⟨c :: ds, ?_, ?_, h3, ?_⟩
      · intro x hx
        rcases List.mem_cons.mp hx with hx | hx
        · subst hx; exact hc
        · exact h1 x hx
      · rw [List.cons_append, ← h2]
      · rw [h4]; simp [digitsVal]
    · have he : parseNatAux (c :: t) acc = (acc, c :: t) := by
        simp [parseNatAux, hc]
      rw [he]
      exact ⟨[], by simp, by simp, by simp [noDigitStart, hc], by simp [digitsVal]⟩

/-! ### Strings round trip -/

theorem escapeChar_cases (c : Char) :
    (∃ e, escapeChar c = ['\\', e] ∧ unescapeChar e = some c) ∨
    (escapeChar c = [c] ∧ c ≠ '"' ∧ c ≠ '\\') := by
  by_cases h1 : c = '"'
  · subst h1; left; exact ⟨'"', by simp [escapeChar], by simp [unescapeChar]⟩
  by_cases h2 : c = '\\'
  · subst h2; left; exact ⟨'\\', by simp [escapeChar], by simp [unescapeChar]⟩
  by_cases h3 : c = '\n'
  · subst h3; left; exact ⟨'n', by simp [escapeChar], by simp [unescapeChar]⟩
  by_cases h4 : c = '\t'
  · subst h4; left; exact ⟨'t', by simp [escapeChar], by simp [unescapeChar]⟩
  by_cases h5 : c = '\r'
  · subst h5; left; exact ⟨'r', by simp [escapeChar], by simp [unescapeChar]⟩
  right
  refine ⟨?_, h1, h2⟩
  unfold escapeChar
  rw [if_neg h1, if_neg h2, if_neg h3, if_neg h4, if_neg h5]

theorem parseStrBody_escape : ∀ s r : List Char,
    parseStrBody (escapeString s ++ '"' :: r) = some (s, r) := by
  intro s
  induction s with
  | nil =>
    intro r
    show parseStrBody ('"' :: r) = _
    rw [parseStrBody, if_pos rfl]
  | cons c s ih =>
    intro r
    show parseStrBody ((escapeChar c ++ escapeString s) ++ '"' :: r) = _
    rcases escapeChar_cases c with ⟨e, he, hu⟩ | ⟨he, h1, h2⟩
    · rw [he]
      show parseStrBody ('\\' :: e :: (escapeString s ++ '"' :: r)) = _
      rw [parseStrBody, if_neg (by decide), if_pos rfl, parseStrEsc, hu, ih r]
    · rw [he]
      show parseStrBody (c :: (escapeString s ++ '"' :: r)) = _
      rw [parseStrBody, if_neg h1, if_neg h2, ih r]

theorem digit_not_special {c : Char} (h : c.isDigit = true) :
    c ≠ ']' ∧ c ≠ '}' ∧ c ≠ ',' ∧ c ≠ '"' ∧ c ≠ '{' ∧ c ≠ '[' ∧ c ≠ 't' ∧ c ≠ 'f' ∧
      c ≠ 'n' ∧ c ≠ '-' := by
  refine ⟨?_, ?_, ?_, ?_, ?_, ?_, ?_, ?_, ?_, ?_⟩ <;> rintro rfl <;> revert h <;> decide

theorem jsonStringify_head (x : JVal) : ∃ c t, jsonStringify x = c :: t ∧
    isJsonWs c = false ∧ c ≠ ']' ∧ c ≠ '}' ∧ c ≠ ',' := by
  cases x with
  | jnull => exact ⟨'n', _, rfl, by decide, by decide, by decide, by decide⟩
  | jbool b =>
    cases b with
    | true => exact ⟨'t', _, rfl, by decide, by decide, by decide, by decide⟩
    | false => exact ⟨'f', _, rfl, by decide, by decide, by decide, by decide⟩
  | jnum n =>
    show ∃ c t, intToDigits n = c :: t ∧ _
    unfold intToDigits
    by_cases hn : n < 0
    · rw [if_pos hn]
      exact ⟨'-', _, rfl, by decide, by decide, by decide, by decide⟩
    · rw [if_neg hn]
      obtain ⟨hdig, _, hne⟩ := natToDigits_spec n.toNat
      obtain ⟨c, t, hct⟩ := List.exists_cons_of_ne_nil hne
      have hc : c.isDigit = true := hdig c (by rw [hct]; simp)
      obtain ⟨h1, h2, h3, _⟩ := digit_not_special hc
      exact ⟨c, t, hct, isJsonWs_of_isDigit hc, h1, h2, h3⟩
  | jstr s => exact ⟨'"', _, rfl, by decide, by decide, by decide, by decide⟩
  | jarr xs => exact ⟨'[', _, rfl, by decide, by decide, by decide, by decide⟩
  | jobj kvs => exact ⟨'{', _, rfl, by decide, by decide, by decide, by decide⟩

theorem isJsonWs_rb : isJsonWs ']' = false := by decide
theorem isJsonWs_rc : isJsonWs '}' = false := by decide
theorem isJsonWs_comma : isJsonWs ',' = false := by decide
theorem isJsonWs_colon : isJsonWs ':' = false := by decide

theorem parseElems_ser : ∀ xs : List JVal,
    (∀ x ∈ xs, ∀ f r, Jfuel x ≤ f → noDigitStart r = true →
      parseVal f (jsonStringify x ++ r) = some (x, r)) →
    ∀ f r, xs ≠ [] → elemsFuel xs ≤ f →
    parseElems f (serElems xs ++ ']' :: r) = some (xs, r) := by
  intro xs
  induction xs with
  | nil => intro _ f r h; exact absurd rfl h
  | cons x xs ih =>
    intro hPV f r _ hf
    obtain ⟨f', rfl⟩ : ∃ f', f = f' + 1 := by
      cases f with
      | zero => exfalso; simp [elemsFuel] at hf
      | succ f' => exact ⟨f', rfl⟩
    have hfx : Jfuel x ≤ f' := by
      simp only [elemsFuel] at hf
      omega
    cases xs with
    | nil =>
      have hv := hPV x (by simp) f' (']' :: r) hfx (by simp [noDigitStart])
      rw [parseElems]
      rw [show serElems [x] = jsonStringify x from rfl]
      simp only [hv, List.dropWhile_cons, isJsonWs_rb, Bool.false_eq_true, if_false, if_true]
      rw [if_neg (by decide)]
    | cons y ys =>
      have hfys : elemsFuel (y :: ys) ≤ f' := by
        simp only [elemsFuel] at hf ⊢
        omega
      have hser : serElems (x :: y :: ys) ++ ']' :: r =
          jsonStringify x ++ (',' :: (serElems (y :: ys) ++ ']' :: r)) := by
        rw [show serElems (x :: y :: ys) = jsonStringify x ++ ',' :: serElems (y :: ys) from rfl]
        simp [List.append_assoc]
      have hv := hPV x (by simp) f' (',' :: (serElems (y :: ys) ++ ']' :: r)) hfx
        (by simp [noDigitStart])
      have he := ih (fun z hz => hPV z (by simp [hz])) f' r (by simp) hfys
      rw [parseElems, hser]
      simp only [hv, List.dropWhile_cons, isJsonWs_comma, Bool.false_eq_true, if_false,
        if_true, he]

theorem parseFields_ser : ∀ kvs : List (List Char × JVal),
    (∀ kv ∈ kvs, ∀ f r, Jfuel kv.2 ≤ f → noDigitStart r = true →
      parseVal f (jsonStringify kv.2 ++ r) = some (kv.2, r)) →
    ∀ f r, kvs ≠ [] → fieldsFuel kvs ≤ f →
    parseFields f (serFields kvs ++ '}' :: r) = some (kvs, r) := by
  intro kvs
  induction kvs with
  | nil => intro _ f r h; exact absurd rfl h
  | cons kv kvs ih =>
    obtain ⟨k, v⟩ := kv
    intro hPV f r _ hf
    obtain ⟨f', rfl⟩ : ∃ f', f = f' + 1 := by
      cases f with
      | zero => exfalso; simp [fieldsFuel] at hf
      | succ f' => exact ⟨f', rfl⟩
    have hfv : Jfuel v ≤ f' := by
      simp only [fieldsFuel] at hf
      omega
    cases kvs with
    | nil =>
      have hser : serFields [(k, v)] ++ '}' :: r =
          '"' :: (escapeString k ++ '"' :: (':' :: (jsonStringify v ++ '}' :: r))) := by
        rw [show serFields [(k, v)] = '"' :: escapeString k ++ '"' :: ':' :: jsonStringify v
          from rfl]
        simp [List.append_assoc]
      have hv := hPV (k, v) (by simp) f' ('}' :: r) hfv (by simp [noDigitStart])
      rw [parseFields, hser]
      simp only [List.dropWhile_cons, show isJsonWs '"' = false from by decide,
        Bool.false_eq_true, if_false, if_true, parseStrBody_escape k,
        isJsonWs_colon, hv, isJsonWs_rc]
      rw [if_neg (by decide)]
    | cons kv2 kvs2 =>
      have hfkvs : fieldsFuel (kv2 :: kvs2) ≤ f' := by
        simp only [fieldsFuel] at hf ⊢
        omega
      have hser : serFields ((k, v) :: kv2 :: kvs2) ++ '}' :: r =
          '"' :: (escapeString k ++ '"' :: (':' :: (jsonStringify v ++
            ',' :: (serFields (kv2 :: kvs2) ++ '}' :: r)))) := by
        rw [show serFields ((k, v) :: kv2 :: kvs2) =
          ('"' :: escapeString k ++ '"' :: ':' :: jsonStringify v) ++
            ',' :: serFields (kv2 :: kvs2) from rfl]
        simp [List.append_assoc]
      have hv := hPV (k, v) (by simp) f'
        (',' :: (serFields (kv2 :: kvs2) ++ '}' :: r)) hfv (by simp [noDigitStart])
      have he := ih (fun z hz => hPV z (by simp [hz])) f' r (by simp) hfkvs
      rw [parseFields, hser]
      simp only [List.dropWhile_cons, show isJsonWs '"' = false from by decide,
        Bool.false_eq_true, if_false, if_true, parseStrBody_escape k,
        isJsonWs_colon, hv, isJsonWs_comma]
      rw [he]


theorem sizeOf_snd_lt (p : List Char × JVal) : sizeOf p.2 < sizeOf p := by
  obtain ⟨a, b⟩ := p
  simp

theorem parseVal_ser_aux : ∀ n : Nat, ∀ x : JVal, sizeOf x ≤ n →
    ∀ f r, Jfuel x ≤ f → noDigitStart r = true →
    parseVal f (jsonStringify x ++ r) = some (x, r) := by
  intro n
  induction n with
  | zero =>
    intro x hx
    exfalso
    cases x <;> simp at hx
  | succ n ih =>
    intro x hx f r hf hr
    obtain ⟨f', rfl⟩ : ∃ f', f = f' + 1 := by
      cases f with
      | zero => exfalso; cases x <;> simp [Jfuel] at hf
      | succ f' => exact ⟨f', rfl⟩
    cases x with
    | jnull =>
      rw [show jsonStringify JVal.jnull = ['n', 'u', 'l', 'l'] from rfl]
      rw [parseVal]
      simp [beginsWith, List.dropWhile_cons, isJsonWs]
    | jbool b =>
      cases b with
      | true =>
        rw [show jsonStringify (JVal.jbool true) = ['t', 'r', 'u', 'e'] from rfl]
        rw [parseVal]
        simp [beginsWith, List.dropWhile_cons, isJsonWs]
      | false =>
        rw [show jsonStringify (JVal.jbool false) = ['f', 'a', 'l', 's', 'e'] from rfl]
        rw [parseVal]
        simp [beginsWith, List.dropWhile_cons, isJsonWs]
    | jstr s =>
      rw [show jsonStringify (JVal.jstr s) = '"' :: (escapeString s ++ ['"']) from rfl]
      rw [parseVal]
      simp only [List.cons_append, List.dropWhile_cons,
        show isJsonWs '"' = false from by decide, Bool.false_eq_true, if_false, if_true,
        List.append_assoc, List.singleton_append, parseStrBody_escape s, List.nil_append]
    | jnum m =>
      rw [show jsonStringify (JVal.jnum m) = intToDigits m from rfl]
      unfold intToDigits
      by_cases hn : m < 0
      · rw [if_pos hn]
        obtain ⟨hdig, hval, hne⟩ := natToDigits_spec m.natAbs
        obtain ⟨d, ds, hds⟩ := List.exists_cons_of_ne_nil hne
        have hd : d.isDigit = true := hdig d (by rw [hds]; simp)
        have hdds : ∀ c ∈ ds, c.isDigit = true := fun c hc => hdig c (by rw [hds]; simp [hc])
        have hv : digitsVal (digitVal d) ds = m.natAbs := by
          have hval2 := hval
          rw [hds] at hval2
          simpa [digitsVal] using hval2
        have hneg : -((m.natAbs : Nat) : Int) = m := by omega
        rw [hds]
        rw [parseVal]
        simp [List.dropWhile_cons, hd, parseNatAux_append ds (digitVal d) r hdds hr, hv, hneg,
          isJsonWs_of_isDigit hd, isJsonWs]
        try rw [abs_of_neg hn, neg_neg]
      · rw [if_neg hn]
        obtain ⟨hdig, hval, hne⟩ := natToDigits_spec m.toNat
        obtain ⟨d, ds, hds⟩ := List.exists_cons_of_ne_nil hne
        have hd : d.isDigit = true := hdig d (by rw [hds]; simp)
        have hdds : ∀ c ∈ ds, c.isDigit = true := fun c hc => hdig c (by rw [hds]; simp [hc])
        obtain ⟨hne1, hne2, hne3, hne4, hne5, hne6, hne7, hne8, hne9, hne10⟩ :=
          digit_not_special hd
        have hv : digitsVal (digitVal d) ds = m.toNat := by
          have hval2 := hval
          rw [hds] at hval2
          simpa [digitsVal] using hval2
        have hpos : ((m.toNat : Nat) : Int) = m := by omega
        rw [hds]
        rw [parseVal]
        simp [List.dropWhile_cons, hd, hne4, hne5, hne6, hne7, hne8, hne9, hne10,
          parseNatAux_append ds (digitVal d) r hdds hr, hv, hpos, isJsonWs_of_isDigit hd]
    | jarr xs =>
      cases xs with
      | nil =>
        rw [show jsonStringify (JVal.jarr []) = ['[', ']'] from rfl]
        rw [parseVal]
        simp [List.dropWhile_cons, isJsonWs]
      | cons x xs =>
        have hPV : ∀ z ∈ x :: xs, ∀ f r, Jfuel z ≤ f → noDigitStart r = true →
            parseVal f (jsonStringify z ++ r) = some (z, r) := by
          intro z hz
          apply ih
          have h1 := List.sizeOf_lt_of_mem hz
          have h2 : sizeOf (JVal.jarr (x :: xs)) = 1 + sizeOf (x :: xs) := by simp
          omega
        have hff : elemsFuel (x :: xs) ≤ f' := by
          simp only [Jfuel] at hf
          omega
        rw [show jsonStringify (JVal.jarr (x :: xs)) = '[' :: (serElems (x :: xs) ++ [']'])
          from rfl]
        obtain ⟨c, t, hct, hcws, hc1, hc2, hc3⟩ := jsonStringify_head x
        obtain ⟨u, hu⟩ : ∃ u, serElems (x :: xs) = jsonStringify x ++ u := by
          cases xs with
          | nil => exact ⟨[], by simp [serElems]⟩
          | cons y ys => exact ⟨',' :: serElems (y :: ys), rfl⟩
        have hse : serElems (x :: xs) ++ (']' :: r) = c :: (t ++ u ++ ']' :: r) := by
          rw [hu, hct]
          simp [List.append_assoc]
        have hel := parseElems_ser (x :: xs) hPV f' r (by simp) hff
        rw [parseVal]
        simp only [List.cons_append, List.append_assoc, List.singleton_append,
          List.dropWhile_cons, show isJsonWs '[' = false from by decide, Bool.false_eq_true,
          if_false, if_true, List.nil_append]
        rw [if_neg (by decide), if_neg (by decide), hse, dropWhile_head_neg hcws]
        simp only [hc1, if_false, ← hse, hel]
    | jobj kvs =>
      cases kvs with
      | nil =>
        rw [show jsonStringify (JVal.jobj []) = ['{', '}'] from rfl]
        rw [parseVal]
        simp [List.dropWhile_cons, isJsonWs]
      | cons kv kvs =>
        have hPV : ∀ z ∈ kv :: kvs, ∀ f r, Jfuel z.2 ≤ f → noDigitStart r = true →
            parseVal f (jsonStringify z.2 ++ r) = some (z.2, r) := by
          intro z hz
          apply ih
          have h1 := List.sizeOf_lt_of_mem hz
          have h2 := sizeOf_snd_lt z
          have h3 : sizeOf (JVal.jobj (kv :: kvs)) = 1 + sizeOf (kv :: kvs) := by simp
          omega
        have hff : fieldsFuel (kv :: kvs) ≤ f' := by
          simp only [Jfuel] at hf
          omega
        rw [show jsonStringify (JVal.jobj (kv :: kvs)) = '{' :: (serFields (kv :: kvs) ++ ['}'])
          from rfl]
        obtain ⟨k, v⟩ := kv
        obtain ⟨u, hu⟩ : ∃ u, serFields ((k, v) :: kvs) = '"' :: u := by
          cases kvs with
          | nil => exact ⟨escapeString k ++ '"' :: ':' :: jsonStringify v, rfl⟩
          | cons kv2 kvs2 =>
            exact ⟨(escapeString k ++ '"' :: ':' :: jsonStringify v) ++
              ',' :: serFields (kv2 :: kvs2),
              by rw [show serFields ((k, v) :: kv2 :: kvs2) =
                ('"' :: escapeString k ++ '"' :: ':' :: jsonStringify v) ++
                  ',' :: serFields (kv2 :: kvs2) from rfl]; simp⟩
        have hse : serFields ((k, v) :: kvs) ++ ('}' :: r) = '"' :: (u ++ '}' :: r) := by
          rw [hu]
          simp
        have hfl := parseFields_ser ((k, v) :: kvs) hPV f' r (by simp) hff
        rw [parseVal]
        simp only [List.cons_append, List.append_assoc, List.singleton_append,
          List.dropWhile_cons, show isJsonWs '{' = false from by decide, Bool.false_eq_true,
          if_false, if_true, List.nil_append]
        rw [if_neg (by decide), hse, dropWhile_head_neg (by decide)]
        simp only [show ('"' : Char) = '}' ↔ False from by simp, if_false, ← hse, hfl]

theorem parseVal_stringify (x : JVal) : ∀ f r, Jfuel x ≤ f → noDigitStart r = true →
    parseVal f (jsonStringify x ++ r) = some (x, r) :=
  parseVal_ser_aux (sizeOf x) x le_rfl

theorem elemsFuel_bound : ∀ xs : List JVal,
    (∀ x ∈ xs, Jfuel x ≤ (jsonStringify x).length + 1) →
    elemsFuel xs ≤ (serElems xs).length + 2 := by
  intro xs
  induction xs with
  | nil => intro _; simp [elemsFuel]
  | cons x xs ih =>
    intro hx
    cases xs with
    | nil =>
      have h1 := hx x (by simp)
      show 1 + max (Jfuel x) (elemsFuel []) ≤ (serElems [x]).length + 2
      rw [show serElems [x] = jsonStringify x from rfl]
      simp only [elemsFuel]
      omega
    | cons y ys =>
      have h1 := hx x (by simp)
      have h2 := ih (fun z hz => hx z (by simp [hz]))
      show 1 + max (Jfuel x) (elemsFuel (y :: ys)) ≤ (serElems (x :: y :: ys)).length + 2
      rw [show serElems (x :: y :: ys) = jsonStringify x ++ ',' :: serElems (y :: ys) from rfl]
      simp only [List.length_append, List.length_cons]
      omega

theorem fieldsFuel_bound : ∀ kvs : List (List Char × JVal),
    (∀ kv ∈ kvs, Jfuel kv.2 ≤ (jsonStringify kv.2).length + 1) →
    fieldsFuel kvs ≤ (serFields kvs).length + 2 := by
  intro kvs
  induction kvs with
  | nil => intro _; simp [fieldsFuel]
  | cons kv kvs ih =>
    obtain ⟨k, v⟩ := kv
    intro hx
    cases kvs with
    | nil =>
      have h1 : Jfuel v ≤ (jsonStringify v).length + 1 := by
        simpa using hx (k, v) (by simp)
      show 1 + max (Jfuel v) (fieldsFuel []) ≤ (serFields [(k, v)]).length + 2
      rw [show serFields [(k, v)] = '"' :: escapeString k ++ '"' :: ':' :: jsonStringify v
        from rfl]
      simp only [fieldsFuel, List.length_append, List.length_cons]
      simp only [Jfuel] at h1 ⊢
      omega
    | cons kv2 kvs2 =>
      have h1 : Jfuel v ≤ (jsonStringify v).length + 1 := by
        simpa using hx (k, v) (by simp)
      have h2 := ih (fun z hz => hx z (by simp [hz]))
      show 1 + max (Jfuel v) (fieldsFuel (kv2 :: kvs2)) ≤
        (serFields ((k, v) :: kv2 :: kvs2)).length + 2
      rw [show serFields ((k, v) :: kv2 :: kvs2) =
        ('"' :: escapeString k ++ '"' :: ':' :: jsonStringify v) ++
          ',' :: serFields (kv2 :: kvs2) from rfl]
      simp only [List.length_append, List.length_cons]
      omega

theorem Jfuel_bound_aux : ∀ n : Nat, ∀ x : JVal, sizeOf x ≤ n →
    Jfuel x ≤ (jsonStringify x).length + 1 := by
  intro n
  induction n with
  | zero =>
    intro x hx
    exfalso
    cases x <;> simp at hx
  | succ n ih =>
    intro x hx
    cases x with
    | jnull => simp [Jfuel]
    | jbool b => simp [Jfuel]
    | jnum m => simp [Jfuel]
    | jstr s => simp [Jfuel]
    | jarr xs =>
      cases xs with
      | nil => simp [Jfuel, elemsFuel]
      | cons x xs =>
        have hb := elemsFuel_bound (x :: xs) (fun z hz => by
          apply ih
          have h1 := List.sizeOf_lt_of_mem hz
          have h2 : sizeOf (JVal.jarr (x :: xs)) = 1 + sizeOf (x :: xs) := by simp
          omega)
        show 1 + elemsFuel (x :: xs) ≤ (jsonStringify (JVal.jarr (x :: xs))).length + 1
        rw [show jsonStringify (JVal.jarr (x :: xs)) = '[' :: (serElems (x :: xs) ++ [']'])
          from rfl]
        simp only [List.length_append, List.length_cons, List.length_nil]
        omega
    | jobj kvs =>
      cases kvs with
      | nil => simp [Jfuel, fieldsFuel]
      | cons kv kvs =>
        have hb := fieldsFuel_bound (kv :: kvs) (fun z hz => by
          apply ih
          have h1 := List.sizeOf_lt_of_mem hz
          have h2 := sizeOf_snd_lt z
          have h3 : sizeOf (JVal.jobj (kv :: kvs)) = 1 + sizeOf (kv :: kvs) := by simp
          omega)
        show 1 + fieldsFuel (kv :: kvs) ≤ (jsonStringify (JVal.jobj (kv :: kvs))).length + 1
        rw [show jsonStringify (JVal.jobj (kv :: kvs)) = '{' :: (serFields (kv :: kvs) ++ ['}'])
          from rfl]
        simp only [List.length_append, List.length_cons, List.length_nil]
        omega

theorem parseJson_stringify (x : JVal) : parseJson (jsonStringify x) = some x := by
  unfold parseJson
  have h := parseVal_stringify x ((jsonStringify x).length + 1) []
    (Jfuel_bound_aux (sizeOf x) x le_rfl) (by simp [noDigitStart])
  rw [List.append_nil] at h
  rw [h]
  simp

/-! ### The extractor on fence-free text, and on clean serializations -/

theorem extract_eq_strip_of_no_fence {s : List Char} (h : containsSeq fence s = false) :
    extract_json_from_response s = stripChars s := by
  unfold extract_json_from_response
  rw [containsSeq_fenceJson_of_fence h]
  simp only [Bool.false_and, Bool.false_eq_true, if_false]
  rw [replaceAllFence_eq_self s h]

theorem stripChars_stringify_obj (kvs : List (List Char × JVal)) :
    stripChars (jsonStringify (JVal.jobj kvs)) = jsonStringify (JVal.jobj kvs) := by
  have h := stripChars_sandwich [] (jsonStringify (JVal.jobj kvs)) [] (by simp) (by simp)
    (by
      intro c hc
      rw [show jsonStringify (JVal.jobj kvs) = '{' :: (serFields kvs ++ ['}']) from rfl] at hc
      simp only [List.head?_cons, Option.some.injEq] at hc
      subst hc
      decide)
    (by
      intro c hc
      rw [show jsonStringify (JVal.jobj kvs) = '{' :: (serFields kvs ++ ['}']) from rfl,
        show ('{' :: (serFields kvs ++ ['}']) : List Char) =
          ('{' :: serFields kvs) ++ ['}'] from by simp, List.getLast?_concat] at hc
      simp only [Option.some.injEq] at hc
      subst hc
      decide)
  simpa using h

/-! ### Claim C2 -/

/-- C2 (amended): extraction composed with the JSON parse is the
identity on the clean serialization of a record X with a japanese_text
field, provided the serialization of X contains no fence marker (X is
well formed in the sense that its objects have distinct keys, as any
value arising from a Python dict is). -/
theorem claim_c2_amended (fields : List (List Char × JVal))
    (hkey : hasKeyFields fields ("japanese_text").data = true)
    (_hwf : JVal.wfB (JVal.jobj fields) = true)
    (hfence : containsSeq fence (jsonStringify (JVal.jobj fields)) = false) :
    process_response (jsonStringify (JVal.jobj fields)) = ProcResult.ok (JVal.jobj fields) := by
  unfold process_response
  rw [extract_eq_strip_of_no_fence hfence, stripChars_stringify_obj,
    parseJson_stringify]
  simp only [jsonContains, hkey]

/-- C2 (counterexample): the claim as stated fails when a string in X
contains a fence marker: the extractor erases the backticks, so the
parse returns a different record.  Here X is the record with
japanese_text bound to a three-backtick string; extraction yields the
record with japanese_text bound to the empty string instead. -/
theorem claim_c2_counterexample :
    hasKeyFields [(("japanese_text").data, JVal.jstr ['`', '`', '`'])]
      ("japanese_text").data = true ∧
    process_response
        (jsonStringify (JVal.jobj [(("japanese_text").data, JVal.jstr ['`', '`', '`'])])) ≠
      ProcResult.ok (JVal.jobj [(("japanese_text").data, JVal.jstr ['`', '`', '`'])]) := by
  refine ⟨by decide, ?_⟩
  intro h
  rw [show process_response
      (jsonStringify (JVal.jobj [(("japanese_text").data, JVal.jstr ['`', '`', '`'])])) =
      ProcResult.ok (JVal.jobj [(("japanese_text").data, JVal.jstr [])]) from rfl] at h
  injection h with h1
  injection h1 with h2
  injection h2 with h3 h4
  injection h3 with h5 h6
  injection h6 with h7
  exact absurd h7 (by decide)

/-- C2 (witness): the amended theorem applied to a concrete record. -/
theorem claim_c2_witness :
    hasKeyFields [(("japanese_text").data, JVal.jstr ("hello").data)]
      ("japanese_text").data = true ∧
    JVal.wfB (JVal.jobj [(("japanese_text").data, JVal.jstr ("hello").data)]) = true ∧
    containsSeq fence
      (jsonStringify (JVal.jobj [(("japanese_text").data, JVal.jstr ("hello").data)])) = false ∧
    process_response
        (jsonStringify (JVal.jobj [(("japanese_text").data, JVal.jstr ("hello").data)])) =
      ProcResult.ok (JVal.jobj [(("japanese_text").data, JVal.jstr ("hello").data)]) :=
  ⟨by decide, by decide, by decide,
    claim_c2_amended [(("japanese_text").data, JVal.jstr ("hello").data)]
      (by decide) (by decide) (by decide)⟩

theorem beginsWith_decomp {p t : List Char} (h : beginsWith p t = true) :
    t = p ++ t.drop p.length := by
  obtain ⟨u, rfl⟩ := (beginsWith_iff p t).mp h
  rw [List.drop_left]

theorem parseVal_front_ws (f : Nat) (w t : List Char) (hw : ∀ c ∈ w, isJsonWs c = true) :
    parseVal f (w ++ t) = parseVal f t := by
  cases f with
  | zero => rfl
  | succ f => rw [parseVal, parseVal, dropWhile_append_all w t hw]

theorem parseElems_front_ws (f : Nat) (w t : List Char) (hw : ∀ c ∈ w, isJsonWs c = true) :
    parseElems f (w ++ t) = parseElems f t := by
  cases f with
  | zero => rfl
  | succ f => rw [parseElems, parseElems, parseVal_front_ws f w t hw]

theorem parseFields_front_ws (f : Nat) (w t : List Char) (hw : ∀ c ∈ w, isJsonWs c = true) :
    parseFields f (w ++ t) = parseFields f t := by
  cases f with
  | zero => rfl
  | succ f => rw [parseFields, parseFields, dropWhile_append_all w t hw]

theorem parseStrBody_decomp_aux : ∀ n : Nat, ∀ t : List Char, t.length ≤ n →
    (∀ k r, parseStrBody t = some (k, r) → ∃ b, t = b ++ r ∧ b ≠ [] ∧
      b.getLast? = some '"' ∧ ∀ r', parseStrBody (b ++ r') = some (k, r')) ∧
    (∀ k r, parseStrEsc t = some (k, r) → ∃ b, t = b ++ r ∧ b ≠ [] ∧
      b.getLast? = some '"' ∧ ∀ r', parseStrEsc (b ++ r') = some (k, r')) := by
  intro n
  induction n with
  | zero =>
    intro t ht
    have : t = [] := by
      cases t with
      | nil => rfl
      | cons c u => simp at ht
    subst this
    constructor
    · intro k r h
      exact absurd h (by rw [parseStrBody]; simp)
    · intro k r h
      exact absurd h (by rw [parseStrEsc]; simp)
  | succ n ih =>
    intro t ht
    constructor
    · intro k r h
      cases t with
      | nil => exact absurd h (by rw [parseStrBody]; simp)
      | cons c u =>
        rw [parseStrBody] at h
        by_cases h1 : c = '"'
        · rw [if_pos h1] at h
          simp only [Option.some.injEq, Prod.mk.injEq] at h
          obtain ⟨rfl, rfl⟩ := h
          refine ⟨[c], rfl, by simp, by simp [h1], ?_⟩
          intro r'
          rw [List.singleton_append, parseStrBody, if_pos h1]
        · rw [if_neg h1] at h
          by_cases h2 : c = '\\'
          · rw [if_pos h2] at h
            obtain ⟨b, hb1, hb2, hb3, hb4⟩ :=
              ((ih u (by simp at ht; omega)).2 k r h)
            refine ⟨c :: b, by simp [hb1], by simp, ?_, ?_⟩
            · rw [show c :: b = [c] ++ b from rfl, List.getLast?_append, hb3]
              rfl
            · intro r'
              rw [List.cons_append, parseStrBody, if_neg h1, if_pos h2]
              exact hb4 r'
          · rw [if_neg h2] at h
            cases hps : parseStrBody u with
            | none => rw [hps] at h; exact absurd h (by simp)
            | some p =>
              rw [hps] at h
              simp only [Option.some.injEq, Prod.mk.injEq] at h
              obtain ⟨rfl, rfl⟩ := h
              obtain ⟨b, hb1, hb2, hb3, hb4⟩ :=
                ((ih u (by simp at ht; omega)).1 p.1 p.2 hps)
              refine ⟨c :: b, by simp [hb1], by simp, ?_, ?_⟩
              · rw [show c :: b = [c] ++ b from rfl, List.getLast?_append, hb3]
                rfl
              · intro r'
                rw [List.cons_append, parseStrBody, if_neg h1, if_neg h2, hb4 r']
    · intro k r h
      cases t with
      | nil => exact absurd h (by rw [parseStrEsc]; simp)
      | cons e u =>
        rw [parseStrEsc] at h
        cases hu : unescapeChar e with
        | none => rw [hu] at h; exact absurd h (by simp)
        | some d =>
          rw [hu] at h
          cases hps : parseStrBody u with
          | none => rw [hps] at h; exact absurd h (by simp)
          | some p =>
            rw [hps] at h
            simp only [Option.some.injEq, Prod.mk.injEq] at h
            obtain ⟨rfl, rfl⟩ := h
            obtain ⟨b, hb1, hb2, hb3, hb4⟩ :=
              ((ih u (by simp at ht; omega)).1 p.1 p.2 hps)
            refine ⟨e :: b, by simp [hb1], by simp, ?_, ?_⟩
            · rw [show e :: b = [e] ++ b from rfl, List.getLast?_append, hb3]
              rfl
            · intro r'
              rw [List.cons_append, parseStrEsc, hu, hb4 r']

theorem parseStrBody_decomp {t k r : List Char} (h : parseStrBody t = some (k, r)) :
    ∃ b, t = b ++ r ∧ b ≠ [] ∧ b.getLast? = some '"' ∧
      ∀ r', parseStrBody (b ++ r') = some (k, r') :=
  (parseStrBody_decomp_aux t.length t le_rfl).1 k r h

theorem isDigit_eq_false_of_isJsonWs {c : Char} (h : isJsonWs c = true) : c.isDigit = false := by
  simp only [isJsonWs, Bool.or_eq_true, decide_eq_true_eq] at h
  rcases h with ((rfl | rfl) | rfl) | rfl <;> decide

theorem noDigitStart_ws_cons {w : List Char} {c : Char} {r : List Char}
    (hw : wsRun w) (hc : c.isDigit = false) : noDigitStart (w ++ c :: r) = true := by
  cases w with
  | nil => simp [noDigitStart, hc]
  | cons a w' => simp [noDigitStart, isDigit_eq_false_of_isJsonWs (hw a (by simp))]

theorem head?_exists_cons {m : List Char} {c : Char} (h : m.head? = some c) :
    ∃ t, m = c :: t := by
  cases m with
  | nil => exact absurd h (by simp)
  | cons a t =>
    simp only [List.head?_cons, Option.some.injEq] at h
    exact ⟨t, by rw [h]⟩

theorem getLast?_append_of_ne {A m : List Char} {c : Char} (h : m.getLast? = some c) :
    (A ++ m).getLast? = some c := by
  rw [List.getLast?_append, h]
  rfl

theorem ValDecomp_str (w t k r : List Char) (hw : wsRun w)
    (hps : parseStrBody t = some (k, r)) : ValDecomp (w ++ '"' :: t) (JVal.jstr k) r := by
  obtain ⟨b, hb1, hb2, hb3, hb4⟩ := parseStrBody_decomp hps
  refine ⟨w, '"' :: b, by simp [hb1], hw, by simp, ?_, ?_, ?_⟩
  · intro c hc
    simp only [List.head?_cons, Option.some.injEq] at hc
    subst hc
    exact ⟨by decide, by decide, by decide, by decide⟩
  · intro c hc
    rw [show ('"' :: b : List Char) = ['"'] ++ b from rfl, getLast?_append_of_ne hb3] at hc
    simp only [Option.some.injEq] at hc
    subst hc
    decide
  · intro f' r' hf' _
    obtain ⟨f'', rfl⟩ : ∃ f'', f' = f'' + 1 := by
      cases f' with
      | zero => exact absurd hf' (by simp)
      | succ f'' => exact ⟨f'', rfl⟩
    rw [List.cons_append, parseVal]
    simp only [List.dropWhile_cons, show isJsonWs '"' = false from by decide,
      Bool.false_eq_true, if_false, if_true, hb4 r']

theorem ValDecomp_null (w t r : List Char) (hw : wsRun w)
    (ht : t = ['u', 'l', 'l'] ++ r) : ValDecomp (w ++ 'n' :: t) JVal.jnull r := by
  refine ⟨w, ['n', 'u', 'l', 'l'], by simp [ht], hw, by simp, ?_, ?_, ?_⟩
  · intro c hc
    simp only [List.head?_cons, Option.some.injEq] at hc
    subst hc
    exact ⟨by decide, by decide, by decide, by decide⟩
  · intro c hc
    simp only [List.getLast?_cons_cons, List.getLast?_singleton, Option.some.injEq] at hc
    subst hc
    decide
  · intro f' r' hf' hr'
    exact parseVal_stringify JVal.jnull f' r' (by simp [Jfuel]; omega) hr'

theorem ValDecomp_true (w t r : List Char) (hw : wsRun w)
    (ht : t = ['r', 'u', 'e'] ++ r) : ValDecomp (w ++ 't' :: t) (JVal.jbool true) r := by
  refine ⟨w, ['t', 'r', 'u', 'e'], by simp [ht], hw, by simp, ?_, ?_, ?_⟩
  · intro c hc
    simp only [List.head?_cons, Option.some.injEq] at hc
    subst hc
    exact ⟨by decide, by decide, by decide, by decide⟩
  · intro c hc
    simp only [List.getLast?_cons_cons, List.getLast?_singleton, Option.some.injEq] at hc
    subst hc
    decide
  · intro f' r' hf' hr'
    exact parseVal_stringify (JVal.jbool true) f' r' (by simp [Jfuel]; omega) hr'

theorem ValDecomp_false (w t r : List Char) (hw : wsRun w)
    (ht : t = ['a', 'l', 's', 'e'] ++ r) : ValDecomp (w ++ 'f' :: t) (JVal.jbool false) r := by
  refine ⟨w, ['f', 'a', 'l', 's', 'e'], by simp [ht], hw, by simp, ?_, ?_, ?_⟩
  · intro c hc
    simp only [List.head?_cons, Option.some.injEq] at hc
    subst hc
    exact ⟨by decide, by decide, by decide, by decide⟩
  · intro c hc
    simp only [List.getLast?_cons_cons, List.getLast?_singleton, Option.some.injEq] at hc
    subst hc
    decide
  · intro f' r' hf' hr'
    exact parseVal_stringify (JVal.jbool false) f' r' (by simp [Jfuel]; omega) hr'

theorem isPyWs_of_isDigit {c : Char} (h : c.isDigit = true) : isPyWs c = false := by
  by_contra hw
  rw [Bool.not_eq_false] at hw
  simp only [isPyWs, Bool.or_eq_true, decide_eq_true_eq] at hw
  rcases hw with ((((rfl | rfl) | rfl) | rfl) | rfl) | rfl <;> revert h <;> decide

theorem mem_of_getLast?_eq : ∀ {l : List Char} {c : Char}, l.getLast? = some c → c ∈ l := by
  intro l
  induction l with
  | nil => intro c h; exact absurd h (by simp)
  | cons a t ih =>
    intro c h
    cases t with
    | nil =>
      simp only [List.getLast?_singleton, Option.some.injEq] at h
      subst h
      simp
    | cons b u =>
      rw [List.getLast?_cons_cons] at h
      exact List.mem_cons_of_mem a (ih h)

theorem getLast?_all_digits {d : Char} {ds : List Char} (hd : d.isDigit = true)
    (hds : ∀ c ∈ ds, c.isDigit = true) :
    ∀ c, (d :: ds).getLast? = some c → c.isDigit = true := by
  intro c hc
  have hmem : c ∈ d :: ds := mem_of_getLast?_eq hc
  rcases List.mem_cons.mp hmem with rfl | hmem2
  · exact hd
  · exact hds c hmem2

theorem ValDecomp_num (w : List Char) (d : Char) (ds r : List Char) (hw : wsRun w)
    (hd : d.isDigit = true) (hds : ∀ c ∈ ds, c.isDigit = true) :
    ValDecomp (w ++ d :: (ds ++ r)) (JVal.jnum ((digitsVal (digitVal d) ds : Nat) : Int)) r := by
  obtain ⟨hne1, hne2, hne3, hne4, hne5, hne6, hne7, hne8, hne9, hne10⟩ := digit_not_special hd
  refine ⟨w, d :: ds, by simp, hw, by simp, ?_, ?_, ?_⟩
  · intro c hc
    simp only [List.head?_cons, Option.some.injEq] at hc
    subst hc
    exact ⟨isPyWs_of_isDigit hd, hne1, hne2, hne3⟩
  · intro c hc
    exact isPyWs_of_isDigit (getLast?_all_digits hd hds c hc)
  · intro f' r' hf' hr'
    obtain ⟨f'', rfl⟩ : ∃ f'', f' = f'' + 1 := by
      cases f' with
      | zero => exact absurd hf' (by simp)
      | succ f'' => exact ⟨f'', rfl⟩
    rw [List.cons_append, parseVal]
    simp [List.dropWhile_cons, isJsonWs_of_isDigit hd, hd, hne4, hne5, hne6, hne7, hne8,
      hne9, hne10, parseNatAux_append ds (digitVal d) r' hds hr']

theorem ValDecomp_numNeg (w : List Char) (d : Char) (ds r : List Char) (hw : wsRun w)
    (hd : d.isDigit = true) (hds : ∀ c ∈ ds, c.isDigit = true) :
    ValDecomp (w ++ '-' :: (d :: (ds ++ r)))
      (JVal.jnum (-((digitsVal (digitVal d) ds : Nat) : Int))) r := by
  refine ⟨w, '-' :: d :: ds, by simp, hw, by simp, ?_, ?_, ?_⟩
  · intro c hc
    simp only [List.head?_cons, Option.some.injEq] at hc
    subst hc
    exact ⟨by decide, by decide, by decide, by decide⟩
  · intro c hc
    rw [List.getLast?_cons_cons] at hc
    exact isPyWs_of_isDigit (getLast?_all_digits hd hds c hc)
  · intro f' r' hf' hr'
    obtain ⟨f'', rfl⟩ : ∃ f'', f' = f'' + 1 := by
      cases f' with
      | zero => exact absurd hf' (by simp)
      | succ f'' => exact ⟨f'', rfl⟩
    rw [List.cons_append, parseVal]
    simp [List.dropWhile_cons, isJsonWs, hd,
      parseNatAux_append ds (digitVal d) r' hds hr']

theorem ValDecomp_objEmpty (w ws1 r : List Char) (hw : wsRun w) (hws1 : wsRun ws1) :
    ValDecomp (w ++ '\x7b' :: (ws1 ++ '\x7d' :: r)) (JVal.jobj []) r := by
  refine ⟨w, '\x7b' :: (ws1 ++ ['\x7d']), by simp, hw, by simp, ?_, ?_, ?_⟩
  · intro c hc
    simp only [List.head?_cons, Option.some.injEq] at hc
    subst hc
    exact ⟨by decide, by decide, by decide, by decide⟩
  · intro c hc
    rw [show ('\x7b' :: (ws1 ++ ['\x7d']) : List Char) = ('\x7b' :: ws1) ++ ['\x7d'] from by simp,
      List.getLast?_concat] at hc
    simp only [Option.some.injEq] at hc
    subst hc
    decide
  · intro f' r' hf' _
    obtain ⟨f'', rfl⟩ : ∃ f'', f' = f'' + 1 := by
      cases f' with
      | zero => exact absurd hf' (by simp)
      | succ f'' => exact ⟨f'', rfl⟩
    rw [parseVal]
    simp only [List.cons_append, List.append_assoc, List.dropWhile_cons,
      show isJsonWs '\x7b' = false from by decide, Bool.false_eq_true, if_false, if_true,
      List.nil_append]
    rw [if_neg (by decide), show (ws1 ++ ('\x7d' :: r' : List Char)).dropWhile isJsonWs =
      '\x7d' :: r' from by rw [dropWhile_append_all ws1 _ hws1, dropWhile_head_neg (by decide)]]
    simp

theorem ValDecomp_arrEmpty (w ws1 r : List Char) (hw : wsRun w) (hws1 : wsRun ws1) :
    ValDecomp (w ++ '[' :: (ws1 ++ ']' :: r)) (JVal.jarr []) r := by
  refine ⟨w, '[' :: (ws1 ++ [']']), by simp, hw, by simp, ?_, ?_, ?_⟩
  · intro c hc
    simp only [List.head?_cons, Option.some.injEq] at hc
    subst hc
    exact ⟨by decide, by decide, by decide, by decide⟩
  · intro c hc
    rw [show ('[' :: (ws1 ++ [']']) : List Char) = ('[' :: ws1) ++ [']'] from by simp,
      List.getLast?_concat] at hc
    simp only [Option.some.injEq] at hc
    subst hc
    decide
  · intro f' r' hf' _
    obtain ⟨f'', rfl⟩ : ∃ f'', f' = f'' + 1 := by
      cases f' with
      | zero => exact absurd hf' (by simp)
      | succ f'' => exact ⟨f'', rfl⟩
    rw [parseVal]
    simp only [List.cons_append, List.append_assoc, List.dropWhile_cons,
      show isJsonWs '[' = false from by decide, Bool.false_eq_true, if_false, if_true,
      List.nil_append]
    rw [if_neg (by decide), if_neg (by decide), show (ws1 ++ (']' :: r' : List Char)).dropWhile
      isJsonWs = ']' :: r' from by rw [dropWhile_append_all ws1 _ hws1,
        dropWhile_head_neg (by decide)]]
    simp

theorem ValDecomp_arr (w ws1 we me r : List Char) (vs : List JVal) (hw : wsRun w)
    (hws1 : wsRun ws1) (hwe : wsRun we) (hme : me ≠ []) (hhead : headValStart me)
    (hlast : me.getLast? = some ']')
    (hreplay : ∀ f' r', me.length < f' → parseElems f' (me ++ r') = some (vs, r')) :
    ValDecomp (w ++ '[' :: (ws1 ++ we ++ me ++ r)) (JVal.jarr vs) r := by
  obtain ⟨c0, t0, hc0⟩ : ∃ c0 t0, me = c0 :: t0 := by
    cases me with
    | nil => exact absurd rfl hme
    | cons a b => exact ⟨a, b, rfl⟩
  obtain ⟨hc0pw, hc0rb, hc0rc, hc0comma⟩ := hhead c0 (by rw [hc0]; rfl)
  have hc0ws : isJsonWs c0 = false := by
    rw [← Bool.not_eq_true]
    intro hj
    rw [isPyWs_of_isJsonWs hj] at hc0pw
    exact absurd hc0pw (by simp)
  refine ⟨w, '[' :: (ws1 ++ we ++ me), by simp, hw, by simp, ?_, ?_, ?_⟩
  · intro c hc
    simp only [List.head?_cons, Option.some.injEq] at hc
    subst hc
    exact ⟨by decide, by decide, by decide, by decide⟩
  · intro c hc
    rw [show ('[' :: (ws1 ++ we ++ me) : List Char) = ('[' :: (ws1 ++ we)) ++ me from by simp,
      getLast?_append_of_ne hlast] at hc
    simp only [Option.some.injEq] at hc
    subst hc
    decide
  · intro f' r' hf' _
    obtain ⟨f'', rfl⟩ : ∃ f'', f' = f'' + 1 := by
      cases f' with
      | zero => exact absurd hf' (by simp)
      | succ f'' => exact ⟨f'', rfl⟩
    have hdw : ((ws1 ++ we ++ me) ++ r').dropWhile isJsonWs = c0 :: (t0 ++ r') := by
      rw [List.append_assoc, List.append_assoc, dropWhile_append_all ws1 _ hws1,
        dropWhile_append_all we _ hwe, hc0, List.cons_append, dropWhile_head_neg hc0ws]
    have hrep := hreplay f'' r' (by simp at hf'; omega)
    rw [hc0] at hrep
    rw [parseVal]
    simp only [List.cons_append, List.append_assoc, List.dropWhile_cons,
      show isJsonWs '[' = false from by decide, Bool.false_eq_true, if_false, if_true,
      List.nil_append]
    rw [if_neg (by decide), if_neg (by decide)]
    rw [show ws1 ++ (we ++ (me ++ r')) = (ws1 ++ we ++ me) ++ r' from by simp [List.append_assoc]]
    rw [show ((ws1 ++ we ++ me) ++ r').dropWhile isJsonWs = c0 :: (t0 ++ r') from hdw]
    simp only [hc0rb, if_false, List.cons_append] at hrep ⊢
    rw [hrep]

theorem ValDecomp_obj (w ws1 wf mf r : List Char) (kvs : List (List Char × JVal))
    (hw : wsRun w) (hws1 : wsRun ws1) (hwf : wsRun wf) (hmf : mf ≠ [])
    (hhead : mf.head? = some '"') (hlast : mf.getLast? = some '}')
    (hreplay : ∀ f' r', mf.length < f' → parseFields f' (mf ++ r') = some (kvs, r')) :
    ValDecomp (w ++ '{' :: (ws1 ++ wf ++ mf ++ r)) (JVal.jobj kvs) r := by
  obtain ⟨t0, ht0⟩ := head?_exists_cons hhead
  refine ⟨w, '{' :: (ws1 ++ wf ++ mf), by simp, hw, by simp, ?_, ?_, ?_⟩
  · intro c hc
    simp only [List.head?_cons, Option.some.injEq] at hc
    subst hc
    exact ⟨by decide, by decide, by decide, by decide⟩
  · intro c hc
    rw [show ('{' :: (ws1 ++ wf ++ mf) : List Char) = ('{' :: (ws1 ++ wf)) ++ mf from by simp,
      getLast?_append_of_ne hlast] at hc
    simp only [Option.some.injEq] at hc
    subst hc
    decide
  · intro f' r' hf' _
    obtain ⟨f'', rfl⟩ : ∃ f'', f' = f'' + 1 := by
      cases f' with
      | zero => exact absurd hf' (by simp)
      | succ f'' => exact ⟨f'', rfl⟩
    have hdw : ((ws1 ++ wf ++ mf) ++ r').dropWhile isJsonWs = '"' :: (t0 ++ r') := by
      rw [List.append_assoc, List.append_assoc, dropWhile_append_all ws1 _ hws1,
        dropWhile_append_all wf _ hwf, ht0, List.cons_append,
        dropWhile_head_neg (by decide)]
    have hrep := hreplay f'' r' (by simp at hf'; omega)
    rw [ht0] at hrep
    rw [parseVal]
    simp only [List.cons_append, List.append_assoc, List.dropWhile_cons,
      show isJsonWs '{' = false from by decide, Bool.false_eq_true, if_false, if_true,
      List.nil_append]
    rw [if_neg (by decide)]
    rw [show ws1 ++ (wf ++ (mf ++ r')) = (ws1 ++ wf ++ mf) ++ r' from by simp [List.append_assoc]]
    rw [show ((ws1 ++ wf ++ mf) ++ r').dropWhile isJsonWs = '"' :: (t0 ++ r') from hdw]
    simp only [List.cons_append] at hrep
    simp only [show ('"' : Char) = '}' ↔ False from by simp, if_false, hrep]

theorem head?_append_of_ne {m t : List Char} (hm : m ≠ []) : (m ++ t).head? = m.head? := by
  cases m with
  | nil => exact absurd rfl hm
  | cons a u => rfl

theorem ElemsDecomp_single (wv mv ws1 r : List Char) (v : JVal) (hwv : wsRun wv)
    (hmv : mv ≠ []) (hheadv : headValStart mv) (hws1 : wsRun ws1)
    (hrepv : ∀ f' r', mv.length < f' → noDigitStart r' = true →
      parseVal f' (mv ++ r') = some (v, r')) :
    ElemsDecomp (wv ++ mv ++ (ws1 ++ ']' :: r)) [v] r := by
  refine ⟨wv, mv ++ ws1 ++ [']'], by simp, hwv, by simp, ?_, ?_, ?_⟩
  · intro c hc
    rw [List.append_assoc, head?_append_of_ne hmv] at hc
    exact hheadv c hc
  · rw [List.getLast?_append, List.getLast?_append, List.getLast?_singleton]
    rfl
  · intro f' r' hf'
    obtain ⟨f'', rfl⟩ : ∃ f'', f' = f'' + 1 := by
      cases f' with
      | zero => exact absurd hf' (by simp)
      | succ f'' => exact ⟨f'', rfl⟩
    have hrep := hrepv f'' (ws1 ++ ']' :: r') (by simp at hf'; omega)
      (noDigitStart_ws_cons hws1 (by decide))
    rw [parseElems]
    rw [show (mv ++ ws1 ++ [']']) ++ r' = mv ++ (ws1 ++ ']' :: r') from by simp]
    simp only [hrep,
      show (ws1 ++ ']' :: r').dropWhile isJsonWs = ']' :: r' from by
        rw [dropWhile_append_all ws1 _ hws1, dropWhile_head_neg (by decide)]]
    simp

theorem ElemsDecomp_cons (wv mv ws1 we me r : List Char) (v : JVal) (vs : List JVal)
    (hwv : wsRun wv) (hmv : mv ≠ []) (hheadv : headValStart mv) (hws1 : wsRun ws1)
    (hrepv : ∀ f' r', mv.length < f' → noDigitStart r' = true →
      parseVal f' (mv ++ r') = some (v, r'))
    (hwe : wsRun we) (hme : me ≠ []) (hlaste : me.getLast? = some ']')
    (hrepe : ∀ f' r', me.length < f' → parseElems f' (me ++ r') = some (vs, r')) :
    ElemsDecomp (wv ++ mv ++ (ws1 ++ ',' :: (we ++ me ++ r))) (v :: vs) r := by
  refine ⟨wv, mv ++ ws1 ++ ',' :: (we ++ me), by simp, hwv, by simp, ?_, ?_, ?_⟩
  · intro c hc
    rw [List.append_assoc, head?_append_of_ne hmv] at hc
    exact hheadv c hc
  · rw [List.getLast?_append,
      show (',' :: (we ++ me) : List Char).getLast? = some ']' from by
        rw [show (',' :: (we ++ me) : List Char) = (',' :: we) ++ me from by simp,
          getLast?_append_of_ne hlaste]]
    rfl
  · intro f' r' hf'
    obtain ⟨f'', rfl⟩ : ∃ f'', f' = f'' + 1 := by
      cases f' with
      | zero => exact absurd hf' (by simp)
      | succ f'' => exact ⟨f'', rfl⟩
    have hrep := hrepv f'' (ws1 ++ ',' :: (we ++ (me ++ r'))) (by simp at hf'; omega)
      (noDigitStart_ws_cons hws1 (by decide))
    have hrepe2 := hrepe f'' r' (by simp at hf'; omega)
    rw [parseElems]
    rw [show (mv ++ ws1 ++ ',' :: (we ++ me)) ++ r' = mv ++ (ws1 ++ ',' :: (we ++ (me ++ r')))
      from by simp]
    simp only [hrep,
      show (ws1 ++ ',' :: (we ++ (me ++ r'))).dropWhile isJsonWs = ',' :: (we ++ (me ++ r'))
        from by rw [dropWhile_append_all ws1 _ hws1, dropWhile_head_neg (by decide)],
      show parseElems f'' (we ++ (me ++ r')) = some (vs, r') from by
        rw [parseElems_front_ws f'' we (me ++ r') hwe]; exact hrepe2]
    simp

theorem FieldsDecomp_single (w b ws2 wv mv ws3 r : List Char) (k : List Char) (v : JVal)
    (hw : wsRun w) (hb : b ≠ []) (hlastb : b.getLast? = some '"')
    (hrepb : ∀ r', parseStrBody (b ++ r') = some (k, r'))
    (hws2 : wsRun ws2) (hwv : wsRun wv) (hmv : mv ≠ []) (hheadv : headValStart mv)
    (hrepv : ∀ f' r', mv.length < f' → noDigitStart r' = true →
      parseVal f' (mv ++ r') = some (v, r'))
    (hws3 : wsRun ws3) :
    FieldsDecomp (w ++ '"' :: (b ++ (ws2 ++ ':' :: (wv ++ mv ++ (ws3 ++ '}' :: r)))))
      [(k, v)] r := by
  refine ⟨w, '"' :: (b ++ ws2 ++ ':' :: (wv ++ mv) ++ ws3 ++ ['}']), by simp, hw, by simp,
    by simp, ?_, ?_⟩
  · rw [show ('"' :: (b ++ ws2 ++ ':' :: (wv ++ mv) ++ ws3 ++ ['}']) : List Char) =
      ('"' :: (b ++ ws2 ++ ':' :: (wv ++ mv) ++ ws3)) ++ ['}'] from by simp,
      List.getLast?_concat]
  · intro f' r' hf'
    obtain ⟨f'', rfl⟩ : ∃ f'', f' = f'' + 1 := by
      cases f' with
      | zero => exact absurd hf' (by simp)
      | succ f'' => exact ⟨f'', rfl⟩
    have hrep := hrepv f'' (ws3 ++ '}' :: r') (by simp at hf'; omega)
      (noDigitStart_ws_cons hws3 (by decide))
    rw [parseFields]
    rw [show ('"' :: (b ++ ws2 ++ ':' :: (wv ++ mv) ++ ws3 ++ ['}'])) ++ r' =
      '"' :: (b ++ (ws2 ++ ':' :: (wv ++ (mv ++ (ws3 ++ '}' :: r'))))) from by simp]
    simp only [List.dropWhile_cons, show isJsonWs '"' = false from by decide,
      Bool.false_eq_true, if_false, if_true,
      hrepb (ws2 ++ ':' :: (wv ++ (mv ++ (ws3 ++ '}' :: r')))),
      show (ws2 ++ ':' :: (wv ++ (mv ++ (ws3 ++ '}' :: r')))).dropWhile isJsonWs =
        ':' :: (wv ++ (mv ++ (ws3 ++ '}' :: r'))) from by
          rw [dropWhile_append_all ws2 _ hws2, dropWhile_head_neg (by decide)],
      show parseVal f'' (wv ++ (mv ++ (ws3 ++ '}' :: r'))) = some (v, ws3 ++ '}' :: r') from by
        rw [parseVal_front_ws f'' wv _ hwv]; exact hrep,
      show (ws3 ++ '}' :: r').dropWhile isJsonWs = '}' :: r' from by
        rw [dropWhile_append_all ws3 _ hws3, dropWhile_head_neg (by decide)]]
    rw [if_neg (by decide)]

theorem FieldsDecomp_cons (w b ws2 wv mv ws3 wf mf r : List Char) (k : List Char) (v : JVal)
    (kvs : List (List Char × JVal))
    (hw : wsRun w) (hb : b ≠ []) (hlastb : b.getLast? = some '"')
    (hrepb : ∀ r', parseStrBody (b ++ r') = some (k, r'))
    (hws2 : wsRun ws2) (hwv : wsRun wv) (hmv : mv ≠ []) (hheadv : headValStart mv)
    (hrepv : ∀ f' r', mv.length < f' → noDigitStart r' = true →
      parseVal f' (mv ++ r') = some (v, r'))
    (hws3 : wsRun ws3) (hwf : wsRun wf) (hmf : mf ≠ []) (hlastf : mf.getLast? = some '}')
    (hrepf : ∀ f' r', mf.length < f' → parseFields f' (mf ++ r') = some (kvs, r')) :
    FieldsDecomp (w ++ '"' :: (b ++ (ws2 ++ ':' :: (wv ++ mv ++ (ws3 ++ ',' ::
      (wf ++ mf ++ r)))))) ((k, v) :: kvs) r := by
  refine ⟨w, '"' :: (b ++ ws2 ++ ':' :: (wv ++ mv) ++ ws3 ++ ',' :: (wf ++ mf)), by simp,
    hw, by simp, by simp, ?_, ?_⟩
  · rw [show ('"' :: (b ++ ws2 ++ ':' :: (wv ++ mv) ++ ws3 ++ ',' :: (wf ++ mf)) : List Char) =
      ('"' :: (b ++ ws2 ++ ':' :: (wv ++ mv) ++ ws3 ++ ',' :: wf)) ++ mf from by simp,
      getLast?_append_of_ne hlastf]
  · intro f' r' hf'
    obtain ⟨f'', rfl⟩ : ∃ f'', f' = f'' + 1 := by
      cases f' with
      | zero => exact absurd hf' (by simp)
      | succ f'' => exact ⟨f'', rfl⟩
    have hrep := hrepv f'' (ws3 ++ ',' :: (wf ++ mf ++ r')) (by simp at hf'; omega)
      (noDigitStart_ws_cons hws3 (by decide))
    have hrepf2 := hrepf f'' r' (by simp at hf'; omega)
    rw [parseFields]
    rw [show ('"' :: (b ++ ws2 ++ ':' :: (wv ++ mv) ++ ws3 ++ ',' :: (wf ++ mf))) ++ r' =
      '"' :: (b ++ (ws2 ++ ':' :: (wv ++ (mv ++ (ws3 ++ ',' :: (wf ++ (mf ++ r')))))))
      from by simp]
    simp only [List.dropWhile_cons, show isJsonWs '"' = false from by decide,
      Bool.false_eq_true, if_false, if_true,
      hrepb (ws2 ++ ':' :: (wv ++ (mv ++ (ws3 ++ ',' :: (wf ++ (mf ++ r')))))),
      show (ws2 ++ ':' :: (wv ++ (mv ++ (ws3 ++ ',' :: (wf ++ (mf ++ r')))))).dropWhile
        isJsonWs = ':' :: (wv ++ (mv ++ (ws3 ++ ',' :: (wf ++ (mf ++ r'))))) from by
          rw [dropWhile_append_all ws2 _ hws2, dropWhile_head_neg (by decide)],
      show parseVal f'' (wv ++ (mv ++ (ws3 ++ ',' :: (wf ++ (mf ++ r'))))) =
        some (v, ws3 ++ ',' :: (wf ++ (mf ++ r'))) from by
          rw [parseVal_front_ws f'' wv _ hwv]
          rw [show ws3 ++ ',' :: (wf ++ mf ++ r') = ws3 ++ ',' :: (wf ++ (mf ++ r'))
            from by simp] at hrep
          exact hrep,
      show (ws3 ++ ',' :: (wf ++ (mf ++ r'))).dropWhile isJsonWs =
        ',' :: (wf ++ (mf ++ r')) from by
          rw [dropWhile_append_all ws3 _ hws3, dropWhile_head_neg (by decide)],
      show parseFields f'' (wf ++ (mf ++ r')) = some (kvs, r') from by
        rw [parseFields_front_ws f'' wf (mf ++ r') hwf]; exact hrepf2]

theorem dropWhile_decomp {l : List Char} {c : Char} {t : List Char}
    (h : l.dropWhile isJsonWs = c :: t) :
    l = l.takeWhile isJsonWs ++ c :: t ∧ wsRun (l.takeWhile isJsonWs) := by
  refine ⟨?_, fun x hx => List.mem_takeWhile_imp hx⟩
  conv_lhs => rw [← List.takeWhile_append_dropWhile (p := isJsonWs) (l := l), h]

theorem parse_decomp_all : ∀ f : Nat,
    (∀ s v r, parseVal f s = some (v, r) → ValDecomp s v r) ∧
    (∀ s vs r, parseElems f s = some (vs, r) → ElemsDecomp s vs r) ∧
    (∀ s kvs r, parseFields f s = some (kvs, r) → FieldsDecomp s kvs r) := by
  intro f
  induction f using Nat.strong_induction_on with
  | _ f ih =>
    match f with
    | 0 =>
      refine ⟨?_, ?_, ?_⟩
      · intro s v r h; exact absurd h (by rw [parseVal]; simp)
      · intro s vs r h; exact absurd h (by rw [parseElems]; simp)
      · intro s kvs r h; exact absurd h (by rw [parseFields]; simp)
    | f0 + 1 =>
      obtain ⟨ihv, ihe, ihf⟩ := ih f0 (by omega)
      refine ⟨?_, ?_, ?_⟩
      · -- parseVal
        intro s v r h
        rw [parseVal] at h
        cases hdw : s.dropWhile isJsonWs with
        | nil => rw [hdw] at h; exact absurd h (by simp)
        | cons c t =>
          simp only [hdw] at h
          obtain ⟨hs, hws⟩ := dropWhile_decomp hdw
          by_cases hc1 : c = '"'
          · subst hc1
            rw [if_pos rfl] at h
            cases hps : parseStrBody t with
            | none => rw [hps] at h; exact absurd h (by simp)
            | some p =>
              obtain ⟨k, r1⟩ := p
              simp only [hps, Option.some.injEq, Prod.mk.injEq] at h
              obtain ⟨rfl, rfl⟩ := h
              rw [hs]
              exact ValDecomp_str _ t k r1 hws hps
          · rw [if_neg hc1] at h
            by_cases hc2 : c = '{'
            · subst hc2
              rw [if_pos rfl] at h
              cases hdw2 : t.dropWhile isJsonWs with
              | nil => rw [hdw2] at h; exact absurd h (by simp)
              | cons d t2 =>
                obtain ⟨ht, hws1⟩ := dropWhile_decomp hdw2
                simp only [hdw2] at h
                by_cases hd : d = '}'
                · subst hd
                  rw [if_pos rfl] at h
                  simp only [Option.some.injEq, Prod.mk.injEq] at h
                  obtain ⟨rfl, rfl⟩ := h
                  rw [hs, ht]
                  exact ValDecomp_objEmpty _ _ _ hws hws1
                · rw [if_neg hd] at h
                  cases hpf : parseFields f0 (d :: t2) with
                  | none => rw [hpf] at h; exact absurd h (by simp)
                  | some q =>
                    obtain ⟨kvs, r2⟩ := q
                    simp only [hpf, Option.some.injEq, Prod.mk.injEq] at h
                    obtain ⟨rfl, rfl⟩ := h
                    obtain ⟨wf, mf, heq, hwf, hmf, hheadf, hlastf, hrepf⟩ := ihf _ _ _ hpf
                    rw [hs, ht, heq]
                    rw [show s.takeWhile isJsonWs ++ '{' :: (t.takeWhile isJsonWs ++
                      (wf ++ mf ++ r2)) = s.takeWhile isJsonWs ++ '{' ::
                      (t.takeWhile isJsonWs ++ wf ++ mf ++ r2) from by simp]
                    exact ValDecomp_obj _ _ _ _ _ _ hws hws1 hwf hmf hheadf hlastf hrepf
            · rw [if_neg hc2] at h
              by_cases hc3 : c = '['
              · subst hc3
                rw [if_pos rfl] at h
                cases hdw2 : t.dropWhile isJsonWs with
                | nil => rw [hdw2] at h; exact absurd h (by simp)
                | cons d t2 =>
                  obtain ⟨ht, hws1⟩ := dropWhile_decomp hdw2
                  simp only [hdw2] at h
                  by_cases hd : d = ']'
                  · subst hd
                    rw [if_pos rfl] at h
                    simp only [Option.some.injEq, Prod.mk.injEq] at h
                    obtain ⟨rfl, rfl⟩ := h
                    rw [hs, ht]
                    exact ValDecomp_arrEmpty _ _ _ hws hws1
                  · rw [if_neg hd] at h
                    cases hpe : parseElems f0 (d :: t2) with
                    | none => rw [hpe] at h; exact absurd h (by simp)
                    | some q =>
                      obtain ⟨vs, r2⟩ := q
                      simp only [hpe, Option.some.injEq, Prod.mk.injEq] at h
                      obtain ⟨rfl, rfl⟩ := h
                      obtain ⟨we, me, heq, hwe, hme, hheade, hlaste, hrepe⟩ := ihe _ _ _ hpe
                      rw [hs, ht, heq]
                      rw [show s.takeWhile isJsonWs ++ '[' :: (t.takeWhile isJsonWs ++
                        (we ++ me ++ r2)) = s.takeWhile isJsonWs ++ '[' ::
                        (t.takeWhile isJsonWs ++ we ++ me ++ r2) from by simp]
                      exact ValDecomp_arr _ _ _ _ _ _ hws hws1 hwe hme hheade hlaste hrepe
              · rw [if_neg hc3] at h
                by_cases hc4 : c = 't'
                · subst hc4
                  rw [if_pos rfl] at h
                  by_cases hbw : beginsWith ['r', 'u', 'e'] t = true
                  · rw [if_pos hbw] at h
                    simp only [Option.some.injEq, Prod.mk.injEq] at h
                    obtain ⟨rfl, rfl⟩ := h
                    rw [hs]
                    exact ValDecomp_true _ t _ hws (by
                      have hb := beginsWith_decomp hbw
                      simpa using hb)
                  · rw [if_neg hbw] at h
                    exact absurd h (by simp)
                · rw [if_neg hc4] at h
                  by_cases hc5 : c = 'f'
                  · subst hc5
                    rw [if_pos rfl] at h
                    by_cases hbw : beginsWith ['a', 'l', 's', 'e'] t = true
                    · rw [if_pos hbw] at h
                      simp only [Option.some.injEq, Prod.mk.injEq] at h
                      obtain ⟨rfl, rfl⟩ := h
                      rw [hs]
                      exact ValDecomp_false _ t _ hws (by
                        have hb := beginsWith_decomp hbw
                        simpa using hb)
                    · rw [if_neg hbw] at h
                      exact absurd h (by simp)
                  · rw [if_neg hc5] at h
                    by_cases hc6 : c = 'n'
                    · subst hc6
                      rw [if_pos rfl] at h
                      by_cases hbw : beginsWith ['u', 'l', 'l'] t = true
                      · rw [if_pos hbw] at h
                        simp only [Option.some.injEq, Prod.mk.injEq] at h
                        obtain ⟨rfl, rfl⟩ := h
                        rw [hs]
                        exact ValDecomp_null _ t _ hws (by
                          have hb := beginsWith_decomp hbw
                          simpa using hb)
                      · rw [if_neg hbw] at h
                        exact absurd h (by simp)
                    · rw [if_neg hc6] at h
                      by_cases hc7 : c = '-'
                      · subst hc7
                        rw [if_pos rfl] at h
                        cases t with
                        | nil => exact absurd h (by simp)
                        | cons d t2 =>
                          simp only [] at h
                          by_cases hd : d.isDigit = true
                          · rw [if_pos hd] at h
                            simp only [Option.some.injEq, Prod.mk.injEq] at h
                            obtain ⟨rfl, rfl⟩ := h
                            obtain ⟨ds, hds1, hds2, hds3, hds4⟩ :=
                              parseNatAux_decomp t2 (digitVal d)
                            have key := ValDecomp_numNeg (s.takeWhile isJsonWs) d ds
                              ((parseNatAux t2 (digitVal d)).2) hws hd hds1
                            rw [← hds2, ← hds4] at key
                            rw [hs]
                            exact key
                          · rw [if_neg hd] at h
                            exact absurd h (by simp)
                      · rw [if_neg hc7] at h
                        by_cases hd : c.isDigit = true
                        · rw [if_pos hd] at h
                          simp only [Option.some.injEq, Prod.mk.injEq] at h
                          obtain ⟨rfl, rfl⟩ := h
                          obtain ⟨ds, hds1, hds2, hds3, hds4⟩ :=
                            parseNatAux_decomp t (digitVal c)
                          have key := ValDecomp_num (s.takeWhile isJsonWs) c ds
                            ((parseNatAux t (digitVal c)).2) hws hd hds1
                          rw [← hds2, ← hds4] at key
                          rw [hs]
                          exact key
                        · rw [if_neg hd] at h
                          exact absurd h (by simp)
      · -- parseElems
        intro s vs r h
        rw [parseElems] at h
        cases hpv : parseVal f0 s with
        | none => rw [hpv] at h; exact absurd h (by simp)
        | some p =>
          obtain ⟨v, r1⟩ := p
          simp only [hpv] at h
          cases hdw : r1.dropWhile isJsonWs with
          | nil => rw [hdw] at h; exact absurd h (by simp)
          | cons c t =>
            obtain ⟨hr1, hws1⟩ := dropWhile_decomp hdw
            simp only [hdw] at h
            obtain ⟨wv, mv, hseq, hwv, hmv, hheadv, _, hrepv⟩ := ihv _ _ _ hpv
            by_cases hc : c = ','
            · subst hc
              rw [if_pos rfl] at h
              cases hpe : parseElems f0 t with
              | none => rw [hpe] at h; exact absurd h (by simp)
              | some q =>
                obtain ⟨vs2, r2⟩ := q
                simp only [hpe, Option.some.injEq, Prod.mk.injEq] at h
                obtain ⟨rfl, rfl⟩ := h
                obtain ⟨we, me, heq, hwe, hme, _, hlaste, hrepe⟩ := ihe _ _ _ hpe
                rw [hseq, hr1, heq]
                rw [show we ++ me ++ r2 = we ++ (me ++ r2) from by simp]
                rw [show wv ++ mv ++ (r1.takeWhile isJsonWs ++ ',' :: (we ++ (me ++ r2))) =
                  wv ++ mv ++ (r1.takeWhile isJsonWs ++ ',' :: (we ++ me ++ r2))
                  from by simp]
                exact ElemsDecomp_cons _ _ _ _ _ _ _ _ hwv hmv hheadv hws1 hrepv hwe hme
                  hlaste hrepe
            · rw [if_neg hc] at h
              by_cases hc2 : c = ']'
              · subst hc2
                rw [if_pos rfl] at h
                simp only [Option.some.injEq, Prod.mk.injEq] at h
                obtain ⟨rfl, rfl⟩ := h
                rw [hseq, hr1]
                exact ElemsDecomp_single _ _ _ _ _ hwv hmv hheadv hws1 hrepv
              · rw [if_neg hc2] at h
                exact absurd h (by simp)
      · -- parseFields
        intro s kvs r h
        rw [parseFields] at h
        cases hdw : s.dropWhile isJsonWs with
        | nil => rw [hdw] at h; exact absurd h (by simp)
        | cons c t =>
          simp only [hdw] at h
          obtain ⟨hs, hws⟩ := dropWhile_decomp hdw
          by_cases hc : c = '"'
          · subst hc
            rw [if_pos rfl] at h
            cases hps : parseStrBody t with
            | none => rw [hps] at h; exact absurd h (by simp)
            | some p =>
              obtain ⟨k, r1⟩ := p
              simp only [hps] at h
              obtain ⟨b, hb1, hb2, hb3, hb4⟩ := parseStrBody_decomp hps
              cases hdw2 : r1.dropWhile isJsonWs with
              | nil => rw [hdw2] at h; exact absurd h (by simp)
              | cons d t2 =>
                obtain ⟨hr1, hws2⟩ := dropWhile_decomp hdw2
                simp only [hdw2] at h
                by_cases hd : d = ':'
                · subst hd
                  rw [if_pos rfl] at h
                  cases hpv : parseVal f0 t2 with
                  | none => rw [hpv] at h; exact absurd h (by simp)
                  | some p2 =>
                    obtain ⟨v, r2⟩ := p2
                    simp only [hpv] at h
                    obtain ⟨wv, mv, hveq, hwv, hmv, hheadv, _, hrepv⟩ := ihv _ _ _ hpv
                    cases hdw3 : r2.dropWhile isJsonWs with
                    | nil => rw [hdw3] at h; exact absurd h (by simp)
                    | cons e t3 =>
                      obtain ⟨hr2, hws3⟩ := dropWhile_decomp hdw3
                      simp only [hdw3] at h
                      by_cases he : e = ','
                      · subst he
                        rw [if_pos rfl] at h
                        cases hpf : parseFields f0 t3 with
                        | none => rw [hpf] at h; exact absurd h (by simp)
                        | some q =>
                          obtain ⟨kvs2, r3⟩ := q
                          simp only [hpf, Option.some.injEq, Prod.mk.injEq] at h
                          obtain ⟨rfl, rfl⟩ := h
                          obtain ⟨wf, mf, hfeq, hwf, hmf, _, hlastf, hrepf⟩ := ihf _ _ _ hpf
                          rw [hs, hb1, hr1, hveq, hr2, hfeq]
                          rw [show wf ++ mf ++ r3 = wf ++ (mf ++ r3) from by simp]
                          rw [show wv ++ mv ++ (r2.takeWhile isJsonWs ++ ',' ::
                            (wf ++ (mf ++ r3))) = wv ++ mv ++ (r2.takeWhile isJsonWs ++ ',' ::
                            (wf ++ mf ++ r3)) from by simp]
                          rw [show b ++ (r1.takeWhile isJsonWs ++ ':' :: (wv ++ mv ++
                            (r2.takeWhile isJsonWs ++ ',' :: (wf ++ mf ++ r3)))) =
                            b ++ (r1.takeWhile isJsonWs ++ ':' :: (wv ++ mv ++
                            (r2.takeWhile isJsonWs ++ ',' :: (wf ++ mf ++ r3))))
                            from rfl]
                          exact FieldsDecomp_cons _ _ _ _ _ _ _ _ _ _ _ _ hws hb2 hb3 hb4
                            hws2 hwv hmv hheadv hrepv hws3 hwf hmf hlastf hrepf
                      · rw [if_neg he] at h
                        by_cases he2 : e = '}'
                        · subst he2
                          rw [if_pos rfl] at h
                          simp only [Option.some.injEq, Prod.mk.injEq] at h
                          obtain ⟨rfl, rfl⟩ := h
                          rw [hs, hb1, hr1, hveq, hr2]
                          exact FieldsDecomp_single _ _ _ _ _ _ _ _ _ hws hb2 hb3 hb4 hws2
                            hwv hmv hheadv hrepv hws3
                        · rw [if_neg he2] at h
                          exact absurd h (by simp)
                · rw [if_neg hd] at h
                  exact absurd h (by simp)
          · rw [if_neg hc] at h
            exact absurd h (by simp)


theorem parseJson_strip (s : List Char) (v : JVal) (h : parseJson s = some v) :
    parseJson (stripChars s) = some v := by
  unfold parseJson at h
  cases hpv : parseVal (s.length + 1) s with
  | none => rw [hpv] at h; exact absurd h (by simp)
  | some p =>
    obtain ⟨v0, r⟩ := p
    simp only [hpv] at h
    by_cases hall : r.all isJsonWs
    · rw [if_pos hall] at h
      simp only [Option.some.injEq] at h
      subst h
      obtain ⟨w, m, hseq, hw, hm, hhead, hlast, hrep⟩ :=
        (parse_decomp_all (s.length + 1)).1 s v0 r hpv
      have hstrip : stripChars s = m := by
        rw [hseq]
        exact stripChars_sandwich w m r
          (fun c hc => isPyWs_of_isJsonWs (hw c hc))
          (fun c hc => isPyWs_of_isJsonWs (by
            have h2 := List.all_eq_true.mp hall c hc
            simpa using h2))
          (fun c hc => (hhead c hc).1)
          hlast
      rw [hstrip]
      unfold parseJson
      have hrun : parseVal (m.length + 1) (m ++ []) = some (v0, []) :=
        hrep (m.length + 1) [] (by omega) (by decide)
      simp only [List.append_nil] at hrun
      rw [hrun]
      simp
    · rw [if_neg hall] at h
      exact absurd h (by simp)

/-! ### Claim C3 -/

/-- C3 (amended): for every fence-free raw text that parses as a JSON
object with no japanese_text key at all, processing fails with
schemaError, which is distinct from parseError.  (The original claim
also demanded schemaError when the field is present but empty; the
code only tests key presence, so an empty value is accepted.) -/
theorem claim_c3_amended (raw : List Char) (fields : List (List Char × JVal))
    (hfence : containsSeq fence raw = false)
    (hparse : parseJson raw = some (JVal.jobj fields))
    (hkey : hasKeyFields fields ("japanese_text").data = false) :
    process_response raw = ProcResult.schemaError ∧
    process_response raw ≠ ProcResult.parseError := by
  have hmain : process_response raw = ProcResult.schemaError := by
    unfold process_response
    rw [extract_eq_strip_of_no_fence hfence, parseJson_strip raw _ hparse]
    simp only [jsonContains, hkey]
  refine ⟨hmain, ?_⟩
  rw [hmain]
  intro h
  exact ProcResult.noConfusion h

/-- C3 (counterexample): a parsed object whose japanese_text field is
present but empty is accepted by the code, not rejected with
schemaError as the claim demands. -/
theorem claim_c3_counterexample :
    parseJson (jsonStringify (JVal.jobj [(("japanese_text").data, JVal.jstr [])])) =
      some (JVal.jobj [(("japanese_text").data, JVal.jstr [])]) ∧
    process_response (jsonStringify (JVal.jobj [(("japanese_text").data, JVal.jstr [])])) ≠
      ProcResult.schemaError := by
  refine ⟨rfl, ?_⟩
  intro h
  rw [show process_response (jsonStringify (JVal.jobj [(("japanese_text").data, JVal.jstr [])])) =
      ProcResult.ok (JVal.jobj [(("japanese_text").data, JVal.jstr [])]) from rfl] at h
  exact ProcResult.noConfusion h

/-- C3 (witness): the amended theorem applied to a concrete raw text
parsing to an object without the japanese_text key. -/
theorem claim_c3_witness :
    containsSeq fence ("\x7b\"a\": 1\x7d").data = false ∧
    parseJson ("\x7b\"a\": 1\x7d").data = some (JVal.jobj [(("a").data, JVal.jnum 1)]) ∧
    hasKeyFields [(("a").data, JVal.jnum 1)] ("japanese_text").data = false ∧
    (process_response ("\x7b\"a\": 1\x7d").data = ProcResult.schemaError ∧
     process_response ("\x7b\"a\": 1\x7d").data ≠ ProcResult.parseError) :=
  ⟨by decide, rfl, by decide,
    claim_c3_amended ("\x7b\"a\": 1\x7d").data [(("a").data, JVal.jnum 1)]
      (by decide) rfl (by decide)⟩

/-! ### Claim C4 -/

/-- C4 (amended): for every request body parsing to a truthy JSON
object whose jlpt_level value is a string not upper-casing to a
catalog key, the handler responds 400 with the invalid-level message
enumerating the catalog keys in order, before any theme check and in
any mode.  (The original claim also demanded this for the empty JSON
object, which the code rejects earlier with the body-required
message.) -/
theorem claim_c4_amended (testing : Bool) (modelReply rawBody : List Char)
    (fields : List (List Char × JVal)) (lvlRaw : List Char)
    (hparse : parseJson rawBody = some (JVal.jobj fields))
    (hne : pyTruthy (JVal.jobj fields) = true)
    (hlvl : dictGet fields ("jlpt_level").data (JVal.jstr []) = JVal.jstr lvlRaw)
    (hbad : ((pyUpper lvlRaw).isEmpty || (lookupLevel (pyUpper lvlRaw)).isNone) = true) :
    generate_text testing modelReply rawBody =
      ⟨400, errorBody (("Invalid JLPT level. Must be one of: ").data ++ levelKeysJoined)⟩ ∧
    levelKeysJoined = ("N5, N4, N3, N2, N1").data := by
  refine ⟨?_, by decide⟩
  unfold generate_text
  rw [hparse]
  have hf : (pyTruthy (JVal.jobj fields) = false) = False := by simp [hne]
  simp only [hf, if_false, hlvl]
  rw [if_pos hbad]

/-- C4 (counterexample): the empty JSON object does not draw the
invalid-level message: the handler rejects it earlier with the
body-required message. -/
theorem claim_c4_counterexample :
    parseJson ("\x7b\x7d").data = some (JVal.jobj []) ∧
    generate_text false [] ("\x7b\x7d").data =
      ⟨400, errorBody ("Request body is required").data⟩ ∧
    generate_text false [] ("\x7b\x7d").data ≠
      ⟨400, errorBody (("Invalid JLPT level. Must be one of: ").data ++ levelKeysJoined)⟩ := by
  refine ⟨rfl, rfl, ?_⟩
  intro h
  rw [show generate_text false [] ("\x7b\x7d").data =
      ⟨400, errorBody ("Request body is required").data⟩ from rfl] at h
  injection h with h1 h2
  unfold errorBody at h2
  injection h2 with h3
  injection h3 with h4 h5
  injection h4 with h6 h7
  injection h7 with h8
  exact absurd h8 (by decide)

/-- C4 (witness): the amended theorem applied to the body of the
end-to-end N6 scenario. -/
theorem claim_c4_witness :
    parseJson ("\x7b\"jlpt_level\": \"N6\", \"theme\": \"Travel\"\x7d").data =
      some (JVal.jobj [(("jlpt_level").data, JVal.jstr ("N6").data),
                       (("theme").data, JVal.jstr ("Travel").data)]) ∧
    pyTruthy (JVal.jobj [(("jlpt_level").data, JVal.jstr ("N6").data),
                         (("theme").data, JVal.jstr ("Travel").data)]) = true ∧
    (generate_text false [] ("\x7b\"jlpt_level\": \"N6\", \"theme\": \"Travel\"\x7d").data =
      ⟨400, errorBody (("Invalid JLPT level. Must be one of: ").data ++ levelKeysJoined)⟩ ∧
     levelKeysJoined = ("N5, N4, N3, N2, N1").data) :=
  ⟨rfl, by decide,
    claim_c4_amended false [] ("\x7b\"jlpt_level\": \"N6\", \"theme\": \"Travel\"\x7d").data
      [(("jlpt_level").data, JVal.jstr ("N6").data),
       (("theme").data, JVal.jstr ("Travel").data)] ("N6").data
      rfl (by decide) rfl (by decide)⟩

/-! ### Claim C5 -/

/-- C5 (amended): for every request body parsing to a truthy JSON
object with a valid string jlpt_level whose theme value is falsy
(absent, empty string, or another falsy value) or not a string, the
handler responds 400 with the theme message.  (The original claim
also demanded rejection of whitespace-only themes; the code tests only
Python truthiness, so a whitespace-only theme passes validation.) -/
theorem claim_c5_amended (testing : Bool) (modelReply rawBody : List Char)
    (fields : List (List Char × JVal)) (lvlRaw : List Char)
    (hparse : parseJson rawBody = some (JVal.jobj fields))
    (hne : pyTruthy (JVal.jobj fields) = true)
    (hlvl : dictGet fields ("jlpt_level").data (JVal.jstr []) = JVal.jstr lvlRaw)
    (hgood : ((pyUpper lvlRaw).isEmpty || (lookupLevel (pyUpper lvlRaw)).isNone) = false)
    (hth : pyTruthy (dictGet fields ("theme").data (JVal.jstr [])) = false ∨
           isStrVal (dictGet fields ("theme").data (JVal.jstr [])) = false) :
    generate_text testing modelReply rawBody =
      ⟨400, errorBody ("Theme is required and must be a string").data⟩ := by
  unfold generate_text
  rw [hparse]
  have hf : (pyTruthy (JVal.jobj fields) = false) = False := by simp [hne]
  simp only [hf, if_false, hlvl]
  rw [if_neg (by simp [hgood])]
  rw [if_pos (by
    rcases hth with hth | hth
    · simp [hth]
    · simp [hth])]

/-- C5 (counterexample): a whitespace-only theme is accepted: with a
valid level and theme " " the handler succeeds (here in mock mode)
instead of returning the 400 theme error. -/
theorem claim_c5_counterexample :
    parseJson ("\x7b\"jlpt_level\": \"N5\", \"theme\": \" \"\x7d").data =
      some (JVal.jobj [(("jlpt_level").data, JVal.jstr ("N5").data),
                       (("theme").data, JVal.jstr [' '])]) ∧
    stripChars [' '] = [] ∧
    generate_text true [] ("\x7b\"jlpt_level\": \"N5\", \"theme\": \" \"\x7d").data =
      ⟨200, MOCK_RESPONSE⟩ ∧
    generate_text true [] ("\x7b\"jlpt_level\": \"N5\", \"theme\": \" \"\x7d").data ≠
      ⟨400, errorBody ("Theme is required and must be a string").data⟩ := by
  refine ⟨rfl, by decide, rfl, ?_⟩
  intro h
  rw [show generate_text true [] ("\x7b\"jlpt_level\": \"N5\", \"theme\": \" \"\x7d").data =
      ⟨200, MOCK_RESPONSE⟩ from rfl] at h
  injection h with h1 h2
  exact absurd h1 (by decide)

/-- C5 (witness): the amended theorem applied to the end-to-end
no-theme scenario. -/
theorem claim_c5_witness :
    parseJson ("\x7b\"jlpt_level\": \"N5\"\x7d").data =
      some (JVal.jobj [(("jlpt_level").data, JVal.jstr ("N5").data)]) ∧
    pyTruthy (JVal.jobj [(("jlpt_level").data, JVal.jstr ("N5").data)]) = true ∧
    pyTruthy (dictGet [(("jlpt_level").data, JVal.jstr ("N5").data)]
      ("theme").data (JVal.jstr [])) = false ∧
    generate_text false [] ("\x7b\"jlpt_level\": \"N5\"\x7d").data =
      ⟨400, errorBody ("Theme is required and must be a string").data⟩ :=
  ⟨rfl, by decide, by decide,
    claim_c5_amended false [] ("\x7b\"jlpt_level\": \"N5\"\x7d").data
      [(("jlpt_level").data, JVal.jstr ("N5").data)] ("N5").data
      rfl (by decide) rfl (by decide) (Or.inl (by decide))⟩

/-! ### Claim C6 -/

/-- C6 (amended): for every valid request and every model reply whose
processing fails with a JSON parse error or the missing-field error,
the handler responds 500 with a body carrying both an error string
extending "Failed to process response: " and the raw reply under the
japanese_text key.  (The original claim extended the fallback to every
failing reply; a reply parsing to a non-container value raises
TypeError in the membership test, which reaches the generic handler
and returns no fallback.) -/
theorem claim_c6_amended (modelReply rawBody : List Char)
    (fields : List (List Char × JVal)) (lvlRaw : List Char)
    (hparse : parseJson rawBody = some (JVal.jobj fields))
    (hne : pyTruthy (JVal.jobj fields) = true)
    (hlvl : dictGet fields ("jlpt_level").data (JVal.jstr []) = JVal.jstr lvlRaw)
    (hgood : ((pyUpper lvlRaw).isEmpty || (lookupLevel (pyUpper lvlRaw)).isNone) = false)
    (hth : pyTruthy (dictGet fields ("theme").data (JVal.jstr [])) = true ∧
           isStrVal (dictGet fields ("theme").data (JVal.jstr [])) = true)
    (hfail : process_response modelReply = ProcResult.parseError ∨
             process_response modelReply = ProcResult.schemaError) :
    ∃ detail, generate_text false modelReply rawBody =
      ⟨500, JVal.jobj
        [(("error").data, JVal.jstr (("Failed to process response: ").data ++ detail)),
         (("japanese_text").data, JVal.jstr modelReply)]⟩ := by
  unfold generate_text
  rw [hparse]
  have hf : (pyTruthy (JVal.jobj fields) = false) = False := by simp [hne]
  simp only [hf, if_false, hlvl]
  rw [if_neg (by simp [hgood])]
  rw [if_neg (by simp [hth.1, hth.2])]
  rw [if_neg (by simp)]
  rcases hfail with hfail | hfail
  · simp only [hfail]
    exact ⟨jsonDecodeDetail, rfl⟩
  · simp only [hfail]
    exact ⟨missingFieldDetail, rfl⟩

/-- C6 (counterexample): the reply "5" parses to a non-container
value, so processing raises TypeError; the handler responds through
the generic 500 branch, whose body neither starts with the
failed-to-process message nor carries the japanese_text fallback. -/
theorem claim_c6_counterexample :
    process_response ['5'] = ProcResult.typeError ("int").data ∧
    generate_text false ['5']
        ("\x7b\"jlpt_level\": \"N5\", \"theme\": \"Travel\"\x7d").data =
      ⟨500, errorBody (("Internal server error: ").data ++ typeErrDetail ("int").data)⟩ ∧
    hasKeyFields [(("error").data,
        JVal.jstr (("Internal server error: ").data ++ typeErrDetail ("int").data))]
      ("japanese_text").data = false ∧
    beginsWith ("Failed to process response: ").data
      (("Internal server error: ").data ++ typeErrDetail ("int").data) = false := by
  exact ⟨rfl, rfl, by decide, by decide⟩

/-- C6 (witness): the amended theorem applied to a valid request and
an unparseable reply. -/
theorem claim_c6_witness :
    process_response ("hello").data = ProcResult.parseError ∧
    ∃ detail, generate_text false ("hello").data
        ("\x7b\"jlpt_level\": \"N5\", \"theme\": \"Travel\"\x7d").data =
      ⟨500, JVal.jobj
        [(("error").data, JVal.jstr (("Failed to process response: ").data ++ detail)),
         (("japanese_text").data, JVal.jstr ("hello").data)]⟩ :=
  ⟨rfl,
    claim_c6_amended ("hello").data
      ("\x7b\"jlpt_level\": \"N5\", \"theme\": \"Travel\"\x7d").data
      [(("jlpt_level").data, JVal.jstr ("N5").data),
       (("theme").data, JVal.jstr ("Travel").data)] ("N5").data
      rfl (by decide) rfl (by decide) ⟨by decide, by decide⟩ (Or.inl rfl)⟩

theorem containsSeq_append_left (pat s t : List Char) (h : containsSeq pat t = true) :
    containsSeq pat (s ++ t) = true := by
  rw [containsSeq_iff] at h ⊢
  obtain ⟨a, b, rfl⟩ := h
  exact ⟨s ++ a, b, by simp⟩

theorem containsSeq_pref (pat t : List Char) : containsSeq pat (pat ++ t) = true := by
  rw [containsSeq_iff]
  exact ⟨[], t, by simp⟩

/-! ### Claim C7 -/

/-- C7 (confirmed): for every catalog entry (L, desc) and every
non-empty topic T, the prompt built by create_gemini_prompt contains T
verbatim, contains the level identifier L, and contains the catalog
description desc; the embedding is a pure function of (L, T), so the
output is deterministic with no side effects. -/
theorem claim_c7 (L desc T : List Char) (hmem : (L, desc) ∈ JLPT_LEVELS) (hT : T ≠ []) :
    containsSeq T (create_gemini_prompt L T) = true ∧
    containsSeq L (create_gemini_prompt L T) = true ∧
    containsSeq desc (create_gemini_prompt L T) = true := by
  have hdesc : lookupLevel L = some desc := by
    simp only [JLPT_LEVELS, List.mem_cons, List.not_mem_nil, or_false, Prod.mk.injEq] at hmem
    rcases hmem with ⟨rfl, rfl⟩ | ⟨rfl, rfl⟩ | ⟨rfl, rfl⟩ | ⟨rfl, rfl⟩ | ⟨rfl, rfl⟩ <;> rfl
  refine ⟨?_, ?_, ?_⟩
  · unfold create_gemini_prompt
    simp only [List.append_assoc]
    exact containsSeq_append_left _ _ _ (containsSeq_pref T _)
  · unfold create_gemini_prompt
    simp only [List.append_assoc]
    exact containsSeq_append_left _ _ _ (containsSeq_append_left _ _ _
      (containsSeq_append_left _ _ _ (containsSeq_pref L _)))
  · unfold create_gemini_prompt
    rw [hdesc]
    simp only [List.append_assoc, Option.getD_some]
    exact containsSeq_append_left _ _ _ (containsSeq_append_left _ _ _
      (containsSeq_append_left _ _ _ (containsSeq_append_left _ _ _
        (containsSeq_append_left _ _ _ (containsSeq_pref desc _)))))

/-- C7 (witness): the claim theorem applied to the N5 entry and the
topic Travel. -/
theorem claim_c7_witness :
    (("N5").data,
      ("Basic Japanese knowledge. ~800 basic vocabulary words, basic grammar patterns.").data)
      ∈ JLPT_LEVELS ∧
    ("Travel").data ≠ [] ∧
    (containsSeq ("Travel").data
        (create_gemini_prompt ("N5").data ("Travel").data) = true ∧
     containsSeq ("N5").data
        (create_gemini_prompt ("N5").data ("Travel").data) = true ∧
     containsSeq
        ("Basic Japanese knowledge. ~800 basic vocabulary words, basic grammar patterns.").data
        (create_gemini_prompt ("N5").data ("Travel").data) = true) :=
  ⟨by decide, by decide,
    claim_c7 ("N5").data
      ("Basic Japanese knowledge. ~800 basic vocabulary words, basic grammar patterns.").data
      ("Travel").data (by decide) (by decide)⟩

/-! ### Claim C8 -/

/-- C8 (confirmed): the handler is case-insensitive in the level: two
request bodies whose jlpt_level strings upper-case to the same key and
whose theme values agree receive identical responses in every mode,
and the prompt builder receives the same upper-cased level. -/
theorem claim_c8 (testing : Bool) (modelReply rawBody1 rawBody2 : List Char)
    (fields1 fields2 : List (List Char × JVal)) (l1 l2 : List Char)
    (hparse1 : parseJson rawBody1 = some (JVal.jobj fields1))
    (hparse2 : parseJson rawBody2 = some (JVal.jobj fields2))
    (hne1 : pyTruthy (JVal.jobj fields1) = true)
    (hne2 : pyTruthy (JVal.jobj fields2) = true)
    (hlvl1 : dictGet fields1 ("jlpt_level").data (JVal.jstr []) = JVal.jstr l1)
    (hlvl2 : dictGet fields2 ("jlpt_level").data (JVal.jstr []) = JVal.jstr l2)
    (hcase : pyUpper l1 = pyUpper l2)
    (hthm : dictGet fields1 ("theme").data (JVal.jstr []) =
            dictGet fields2 ("theme").data (JVal.jstr [])) :
    generate_text testing modelReply rawBody1 = generate_text testing modelReply rawBody2 ∧
    create_gemini_prompt (pyUpper l1) = create_gemini_prompt (pyUpper l2) := by
  constructor
  · unfold generate_text
    rw [hparse1, hparse2]
    have hf1 : (pyTruthy (JVal.jobj fields1) = false) = False := by simp [hne1]
    have hf2 : (pyTruthy (JVal.jobj fields2) = false) = False := by simp [hne2]
    simp only [hf1, hf2, if_false, hlvl1, hlvl2, hthm, hcase]
  · rw [hcase]

/-- C8 (witness): the claim theorem applied to the lower-case n5 body
and the upper-case N5 body of the end-to-end scenario; in mock mode
both succeed with the canned record. -/
theorem claim_c8_witness :
    pyUpper ("n5").data = pyUpper ("N5").data ∧
    (generate_text true [] ("\x7b\"jlpt_level\": \"n5\", \"theme\": \"Travel\"\x7d").data =
       generate_text true [] ("\x7b\"jlpt_level\": \"N5\", \"theme\": \"Travel\"\x7d").data ∧
     create_gemini_prompt (pyUpper ("n5").data) = create_gemini_prompt (pyUpper ("N5").data)) ∧
    generate_text true [] ("\x7b\"jlpt_level\": \"n5\", \"theme\": \"Travel\"\x7d").data =
      ⟨200, MOCK_RESPONSE⟩ :=
  ⟨by decide,
    claim_c8 true [] ("\x7b\"jlpt_level\": \"n5\", \"theme\": \"Travel\"\x7d").data
      ("\x7b\"jlpt_level\": \"N5\", \"theme\": \"Travel\"\x7d").data
      [(("jlpt_level").data, JVal.jstr ("n5").data),
       (("theme").data, JVal.jstr ("Travel").data)]
      [(("jlpt_level").data, JVal.jstr ("N5").data),
       (("theme").data, JVal.jstr ("Travel").data)]
      ("n5").data ("N5").data rfl rfl (by decide) (by decide) rfl rfl (by decide) rfl,
    rfl⟩

/-! ### Claim C9 -/

/-- C9 (confirmed): in mock mode validation still runs first: for a
request body parsing to a truthy object with a string level, an
invalid level or theme draws exactly the production 400 response,
and a valid request draws 200 with the canned record, independent of
the model reply. -/
theorem claim_c9 (modelReply rawBody : List Char)
    (fields : List (List Char × JVal)) (lvlRaw : List Char)
    (hparse : parseJson rawBody = some (JVal.jobj fields))
    (hne : pyTruthy (JVal.jobj fields) = true)
    (hlvl : dictGet fields ("jlpt_level").data (JVal.jstr []) = JVal.jstr lvlRaw) :
    generate_text true modelReply rawBody =
      (if (pyUpper lvlRaw).isEmpty || (lookupLevel (pyUpper lvlRaw)).isNone ||
          (pyTruthy (dictGet fields ("theme").data (JVal.jstr [])) = false ||
           !isStrVal (dictGet fields ("theme").data (JVal.jstr []))) then
        generate_text false modelReply rawBody
      else ⟨200, MOCK_RESPONSE⟩) ∧
    (if (pyUpper lvlRaw).isEmpty || (lookupLevel (pyUpper lvlRaw)).isNone ||
        (pyTruthy (dictGet fields ("theme").data (JVal.jstr [])) = false ||
         !isStrVal (dictGet fields ("theme").data (JVal.jstr []))) then
      (generate_text false modelReply rawBody).status = 400
    else (generate_text true modelReply rawBody).status = 200) := by
  have hf : (pyTruthy (JVal.jobj fields) = false) = False := by simp [hne]
  by_cases h1 : ((pyUpper lvlRaw).isEmpty || (lookupLevel (pyUpper lvlRaw)).isNone) = true
  · have hcond : ((pyUpper lvlRaw).isEmpty || (lookupLevel (pyUpper lvlRaw)).isNone ||
        (pyTruthy (dictGet fields ("theme").data (JVal.jstr [])) = false ||
         !isStrVal (dictGet fields ("theme").data (JVal.jstr [])))) = true := by
      simp only [Bool.or_eq_true] at h1 ⊢
      rcases h1 with h1 | h1
      · exact Or.inl (Or.inl h1)
      · exact Or.inl (Or.inr h1)
    constructor
    · rw [if_pos hcond]
      unfold generate_text
      simp only [hparse, hf, if_false, hlvl, h1]
      simp
    · rw [if_pos hcond]
      unfold generate_text
      simp only [hparse, hf, if_false, hlvl, h1]
      simp
  · have h1f : ((pyUpper lvlRaw).isEmpty || (lookupLevel (pyUpper lvlRaw)).isNone) = false :=
      Bool.eq_false_iff.mpr h1
    by_cases h2 : (decide (pyTruthy (dictGet fields ("theme").data (JVal.jstr [])) = false) ||
        !isStrVal (dictGet fields ("theme").data (JVal.jstr []))) = true
    · have hcond : ((pyUpper lvlRaw).isEmpty || (lookupLevel (pyUpper lvlRaw)).isNone ||
          (pyTruthy (dictGet fields ("theme").data (JVal.jstr [])) = false ||
           !isStrVal (dictGet fields ("theme").data (JVal.jstr [])))) = true := by
        simp only [Bool.or_eq_true] at h2 ⊢
        rcases h2 with h2 | h2
        · exact Or.inr (Or.inl (by simpa using h2))
        · exact Or.inr (Or.inr h2)
      constructor
      · rw [if_pos hcond]
        unfold generate_text
        simp only [hparse, hf, if_false, hlvl, h1f, h2]
        simp
      · rw [if_pos hcond]
        unfold generate_text
        simp only [hparse, hf, if_false, hlvl, h1f, h2]
        simp
    · have h2f : (decide (pyTruthy (dictGet fields ("theme").data (JVal.jstr [])) = false) ||
          !isStrVal (dictGet fields ("theme").data (JVal.jstr []))) = false :=
        Bool.eq_false_iff.mpr h2
      have hcondneg : ¬(((pyUpper lvlRaw).isEmpty || (lookupLevel (pyUpper lvlRaw)).isNone ||
          (pyTruthy (dictGet fields ("theme").data (JVal.jstr [])) = false ||
           !isStrVal (dictGet fields ("theme").data (JVal.jstr [])))) = true) := by
        simp only [Bool.or_eq_true, not_or]
        simp only [Bool.or_eq_true, not_or] at h1
        refine ⟨⟨h1.1, h1.2⟩, ?_, ?_⟩
        · simp only [Bool.or_eq_true] at h2f
          intro hx
          have : decide (pyTruthy (dictGet fields ("theme").data (JVal.jstr [])) = false)
              = true := by simpa using hx
          simp [this] at h2f
        · intro hx
          simp [hx] at h2f
      constructor
      · rw [if_neg hcondneg]
        unfold generate_text
        simp only [hparse, hf, if_false, hlvl, h1f, h2f]
        simp
      · rw [if_neg hcondneg]
        unfold generate_text
        simp only [hparse, hf, if_false, hlvl, h1f, h2f]
        simp

/-- C9 (witness): the claim theorem applied to the valid Travel
request: in mock mode the response is 200 with the canned record
whatever the model reply would have been. -/
theorem claim_c9_witness :
    parseJson ("\x7b\"jlpt_level\": \"N5\", \"theme\": \"Travel\"\x7d").data =
      some (JVal.jobj [(("jlpt_level").data, JVal.jstr ("N5").data),
                       (("theme").data, JVal.jstr ("Travel").data)]) ∧
    (generate_text true ("anything").data
        ("\x7b\"jlpt_level\": \"N5\", \"theme\": \"Travel\"\x7d").data =
      (if (pyUpper ("N5").data).isEmpty || (lookupLevel (pyUpper ("N5").data)).isNone ||
          (pyTruthy (dictGet [(("jlpt_level").data, JVal.jstr ("N5").data),
                              (("theme").data, JVal.jstr ("Travel").data)]
             ("theme").data (JVal.jstr [])) = false ||
           !isStrVal (dictGet [(("jlpt_level").data, JVal.jstr ("N5").data),
                               (("theme").data, JVal.jstr ("Travel").data)]
             ("theme").data (JVal.jstr []))) then
        generate_text false ("anything").data
          ("\x7b\"jlpt_level\": \"N5\", \"theme\": \"Travel\"\x7d").data
      else ⟨200, MOCK_RESPONSE⟩) ∧
     (if (pyUpper ("N5").data).isEmpty || (lookupLevel (pyUpper ("N5").data)).isNone ||
          (pyTruthy (dictGet [(("jlpt_level").data, JVal.jstr ("N5").data),
                              (("theme").data, JVal.jstr ("Travel").data)]
             ("theme").data (JVal.jstr [])) = false ||
           !isStrVal (dictGet [(("jlpt_level").data, JVal.jstr ("N5").data),
                               (("theme").data, JVal.jstr ("Travel").data)]
             ("theme").data (JVal.jstr []))) then
        (generate_text false ("anything").data
          ("\x7b\"jlpt_level\": \"N5\", \"theme\": \"Travel\"\x7d").data).status = 400
      else (generate_text true ("anything").data
          ("\x7b\"jlpt_level\": \"N5\", \"theme\": \"Travel\"\x7d").data).status = 200)) :=
  ⟨rfl,
    claim_c9 ("anything").data ("\x7b\"jlpt_level\": \"N5\", \"theme\": \"Travel\"\x7d").data
      [(("jlpt_level").data, JVal.jstr ("N5").data),
       (("theme").data, JVal.jstr ("Travel").data)] ("N5").data
      rfl (by decide) rfl⟩

/-! ### Claim C10 -/

/-- C10 (confirmed): a request whose jlpt_level value is present but
not a string draws the generic 500 internal-server-error response (the
AttributeError from upper-casing a non-string reaches the outer
handler), not the 400 invalid-level response. -/
theorem claim_c10 (testing : Bool) (modelReply rawBody : List Char)
    (fields : List (List Char × JVal)) (v : JVal)
    (hparse : parseJson rawBody = some (JVal.jobj fields))
    (hne : pyTruthy (JVal.jobj fields) = true)
    (hlvl : dictGet fields ("jlpt_level").data (JVal.jstr []) = v)
    (hnotstr : isStrVal v = false) :
    generate_text testing modelReply rawBody =
      ⟨500, errorBody (("Internal server error: ").data ++ attrErrNoUpper v)⟩ ∧
    beginsWith ("Internal server error: ").data
      (("Internal server error: ").data ++ attrErrNoUpper v) = true ∧
    (generate_text testing modelReply rawBody).status ≠ 400 := by
  have hf : (pyTruthy (JVal.jobj fields) = false) = False := by simp [hne]
  have hmain : generate_text testing modelReply rawBody =
      ⟨500, errorBody (("Internal server error: ").data ++ attrErrNoUpper v)⟩ := by
    unfold generate_text
    simp only [hparse, hf, if_false, hlvl]
    cases v with
    | jstr s => exact absurd hnotstr (by simp [isStrVal])
    | jnull => rfl
    | jbool b => rfl
    | jnum n => rfl
    | jarr xs => rfl
    | jobj kvs => rfl
  refine ⟨hmain, (beginsWith_iff _ _).mpr ⟨attrErrNoUpper v, rfl⟩, ?_⟩
  rw [hmain]
  intro h
  have h2 : (500 : Nat) = 400 := h
  exact absurd h2 (by decide)

/-- C10 (witness): the claim theorem applied to a body whose
jlpt_level is the number 5. -/
theorem claim_c10_witness :
    parseJson ("\x7b\"jlpt_level\": 5, \"theme\": \"Travel\"\x7d").data =
      some (JVal.jobj [(("jlpt_level").data, JVal.jnum 5),
                       (("theme").data, JVal.jstr ("Travel").data)]) ∧
    isStrVal (JVal.jnum 5) = false ∧
    (generate_text false [] ("\x7b\"jlpt_level\": 5, \"theme\": \"Travel\"\x7d").data =
      ⟨500, errorBody (("Internal server error: ").data ++ attrErrNoUpper (JVal.jnum 5))⟩ ∧
     beginsWith ("Internal server error: ").data
      (("Internal server error: ").data ++ attrErrNoUpper (JVal.jnum 5)) = true ∧
     (generate_text false [] ("\x7b\"jlpt_level\": 5, \"theme\": \"Travel\"\x7d").data).status
       ≠ 400) :=
  ⟨rfl, by decide,
    claim_c10 false [] ("\x7b\"jlpt_level\": 5, \"theme\": \"Travel\"\x7d").data
      [(("jlpt_level").data, JVal.jnum 5), (("theme").data, JVal.jstr ("Travel").data)]
      (JVal.jnum 5) rfl (by decide) rfl (by decide)⟩
